import Mathlib

/-!
Verification of the segmentation-range enumerator and beam-search containers of
`harmonic_inference/models/joint_model.py`.

Modelling conventions (shallow embedding):
* Python `float` probabilities and `Fraction` durations are modelled as `ℚ`;
  `max_chord_length` is `WithTop ℚ` so that an unbounded maximum (`+inf`) is
  representable.  Log-probability bookkeeping of `get_chord_ranges` is omitted:
  it never influences which ranges are emitted or any other control flow.
* Python exceptions are modelled with `Except PyError`; a `.error` value marks
  the exception that the Python code would raise at that point.
* The min-heap `self.beam` (`heapq`) is modelled as a list kept sorted by
  `log_prob`, so its head is the heap minimum; `heapq.heappush` becomes an
  ordered insertion, `heapq.heappop` removes the head.  Tie order among equal
  `log_prob` values is unspecified by `heapq` and no claim depends on it.
* Python objects have identity (`State.valid` is flipped in place through an
  alias held by `state_dict`).  Each modelled `State` therefore carries an `id`
  field; invalidation rewrites the unique heap entry carrying that id.
  The `prev_state` parent pointer and incremental hash construction are not
  modelled: no claim below depends on path reconstruction.
-/

namespace JointModel

/-- Python exception kinds raised by the modelled code paths. -/
inductive PyError
  | indexError
  | typeError
  | valueError
deriving DecidableEq, Repr

/-- A hash signature: the tuple of the last `hash_length` `(key, chord)` pairs
of a `State` (entries may be `None`, hence `Option`). -/
abbrev Sig := List (Option ℕ × Option ℕ)

/-- The value returned by `State.get_hash`: the hash tuple when present,
otherwise the Python object id (`id(self)`). -/
inductive PyHashValue
  | intId (n : ℕ)
  | tuple (s : Sig)
deriving DecidableEq, Repr

/-- Model of `State` (joint_model.py lines 31-221) restricted to the fields the
beam containers read: `chord`, `key`, `change_index`, `log_prob`, `valid` and
`hash_tuple`.  The extra `id` field models Python object identity (used for the
in-place `state.valid = False` mutation); `prev_state` is not modelled. -/
structure State where
  id : ℕ
  chord : Option ℕ := none
  key : Option ℕ := none
  changeIndex : ℕ := 0
  logProb : ℚ := 0
  valid : Bool := true
  hashTuple : Option Sig := none
deriving DecidableEq, Repr

/-- `State.get_hash` (lines 200-218): the hash tuple if the state has one,
otherwise the object id. -/
def State.getHash (s : State) : PyHashValue :=
  match s.hashTuple with
  | some t => PyHashValue.tuple t
  | none => PyHashValue.intId s.id

/-- The comparison `State.__lt__` uses only `log_prob`; the heap order is the
corresponding non-strict relation. -/
def stateLE (a b : State) : Prop := a.logProb ≤ b.logProb

instance : DecidableRel stateLE := fun a b => inferInstanceAs (Decidable (a.logProb ≤ b.logProb))

instance : IsTotal State stateLE := ⟨fun a b => le_total a.logProb b.logProb⟩

instance : IsTrans State stateLE := ⟨fun _ _ _ hab hbc => le_trans hab hbc⟩

/-- Model of `Beam` (lines 224-312): a bounded container whose `beam` list is
the `heapq` min-heap, here kept sorted by `log_prob` (head = heap minimum). -/
structure Beam where
  beamSize : ℕ
  heap : List State
deriving DecidableEq, Repr

/-- `Beam.add` (lines 266-288).  When the beam is full it compares the new
state against the heap minimum and uses `heapq.heappushpop`; on an empty heap
with `beam_size = 0` the Python guard `self.beam[0] < state` raises
`IndexError`. -/
def Beam.add (b : Beam) (s : State) : Except PyError (Beam × Bool) :=
  if b.heap.length = b.beamSize then
    match b.heap with
    | [] => .error .indexError
    | m :: rest =>
      if m.logProb < s.logProb then .ok (⟨b.beamSize, List.orderedInsert stateLE s rest⟩, true)
      else .ok (b, false)
  else .ok (⟨b.beamSize, List.orderedInsert stateLE s b.heap⟩, true)

/-- `Beam.add`, additionally reporting the state evicted by
`heapq.heappushpop` (proof instrumentation; the Python method returns only the
boolean). -/
def Beam.addTraced (b : Beam) (s : State) : Except PyError (Beam × Bool × List State) :=
  if b.heap.length = b.beamSize then
    match b.heap with
    | [] => .error .indexError
    | m :: rest =>
      if m.logProb < s.logProb then
        .ok (⟨b.beamSize, List.orderedInsert stateLE s rest⟩, true, [m])
      else .ok (b, false, [])
  else .ok (⟨b.beamSize, List.orderedInsert stateLE s b.heap⟩, true, [])

/-- Python `max(iterable)` keeps the first maximal element; `State.__lt__`
compares `log_prob`. -/
def pyMaxFold (x : State) (l : List State) : State :=
  l.foldl (fun acc y => if acc.logProb < y.logProb then y else acc) x

/-- `Beam.get_top_state` (lines 290-300): `max(self)`; on an empty beam Python
`max` raises `ValueError`. -/
def Beam.getTopState (b : Beam) : Except PyError State :=
  match b.heap with
  | [] => .error .valueError
  | x :: xs => .ok (pyMaxFold x xs)

/-- `Beam.empty` (lines 302-306). -/
def Beam.emptied (b : Beam) : Beam := ⟨b.beamSize, []⟩

/-- Run a sequence of `Beam.add` calls, recording which states were inserted
(`add` returned `True`) and which were evicted by `heapq.heappushpop`. -/
def runBeamAdds : Beam → List State → List State → List State →
    Except PyError (Beam × List State × List State)
  | b, [], ins, ev => .ok (b, ins, ev)
  | b, s :: rest, ins, ev =>
    match b.addTraced s with
    | .error e => .error e
    | .ok (b', fl, evs) => runBeamAdds b' rest (if fl then ins ++ [s] else ins) (ev ++ evs)

lemma pyMaxFold_mem (x : State) (l : List State) : pyMaxFold x l = x ∨ pyMaxFold x l ∈ l := by
  induction l generalizing x with
  | nil => exact Or.inl rfl
  | cons y t ih =>
    simp only [pyMaxFold, List.foldl_cons] at *
    rcases ih (if x.logProb < y.logProb then y else x) with h | h
    · rw [h]
      split
      · exact Or.inr (List.mem_cons_self _ _)
      · exact Or.inl rfl
    · exact Or.inr (List.mem_cons_of_mem _ h)

lemma pyMaxFold_le (x : State) (l : List State) :
    x.logProb ≤ (pyMaxFold x l).logProb ∧
      ∀ y ∈ l, y.logProb ≤ (pyMaxFold x l).logProb := by
  induction l generalizing x with
  | nil => exact ⟨le_refl _, by simp⟩
  | cons y t ih =>
    simp only [pyMaxFold, List.foldl_cons] at *
    obtain ⟨h1, h2⟩ := ih (if x.logProb < y.logProb then y else x)
    have hx : x.logProb ≤ (if x.logProb < y.logProb then y else x).logProb := by
      split
      · next h => exact le_of_lt h
      · exact le_refl _
    have hy : y.logProb ≤ (if x.logProb < y.logProb then y else x).logProb := by
      split
      · exact le_refl _
      · next h => exact le_of_not_lt h
    refine ⟨le_trans hx h1, ?_⟩
    intro z hz
    rcases List.mem_cons.mp hz with rfl | hz
    · exact le_trans hy h1
    · exact h2 z hz

lemma coe_orderedInsert (s : State) (l : List State) :
    ((List.orderedInsert stateLE s l : List State) : Multiset State) =
      (l : Multiset State) + {s} := by
  rw [Multiset.coe_eq_coe.mpr (List.perm_orderedInsert stateLE s l), ← Multiset.cons_coe,
    ← Multiset.singleton_add]
  abel

lemma addTraced_spec (b : Beam) (s : State) {b' : Beam} {fl : Bool} {evs : List State}
    (h : b.addTraced s = .ok (b', fl, evs)) :
    b'.beamSize = b.beamSize ∧
    (b.heap.length ≤ b.beamSize → b'.heap.length ≤ b.beamSize) ∧
    (b'.heap : Multiset State) + (evs : Multiset State) =
      (b.heap : Multiset State) + (if fl then {s} else 0) := by
  obtain ⟨k, hp⟩ := b
  unfold Beam.addTraced at h
  dsimp only at h ⊢
  split at h
  · next hlen =>
    split at h
    · exact absurd h (by simp)
    · next m rest =>
      simp only [List.length_cons] at hlen
      split at h
      · next hlt =>
        simp only [Except.ok.injEq, Prod.mk.injEq] at h
        obtain ⟨rfl, rfl, rfl⟩ := h
        refine ⟨rfl, ?_, ?_⟩
        · intro _
          simp only [List.orderedInsert_length]
          omega
        · have hm : (([m] : List State) : Multiset State) = {m} := rfl
          have hcons : ((m :: rest : List State) : Multiset State) =
              {m} + (rest : Multiset State) := by
            rw [← Multiset.cons_coe, ← Multiset.singleton_add]
          rw [if_pos rfl, coe_orderedInsert, hm, hcons]
          abel
      · next hlt =>
        simp only [Except.ok.injEq, Prod.mk.injEq] at h
        obtain ⟨rfl, rfl, rfl⟩ := h
        exact ⟨rfl, fun hb => hb, by simp⟩
  · next hlen =>
    simp only [Except.ok.injEq, Prod.mk.injEq] at h
    obtain ⟨rfl, rfl, rfl⟩ := h
    refine ⟨rfl, ?_, ?_⟩
    · intro hb
      simp only [List.orderedInsert_length]
      omega
    · simp only [if_pos rfl, coe_orderedInsert, Multiset.coe_nil]
      abel

lemma runBeamAdds_spec : ∀ (ss : List State) (b : Beam) (ins ev : List State)
    {b' : Beam} {ins' ev' : List State},
    runBeamAdds b ss ins ev = .ok (b', ins', ev') →
    b'.beamSize = b.beamSize ∧
    (b.heap.length ≤ b.beamSize → b'.heap.length ≤ b.beamSize) ∧
    ∃ insN evN, ins' = ins ++ insN ∧ ev' = ev ++ evN ∧
      (b'.heap : Multiset State) + (evN : Multiset State) =
        (b.heap : Multiset State) + (insN : Multiset State)
  | [], b, ins, ev, b', ins', ev', h => by
    rw [runBeamAdds] at h
    simp only [Except.ok.injEq, Prod.mk.injEq] at h
    obtain ⟨rfl, rfl, rfl⟩ := h
    exact ⟨rfl, fun hb => hb, [], [], by simp, by simp, by simp⟩
  | s :: rest, b, ins, ev, b', ins', ev', h => by
    rw [runBeamAdds] at h
    cases hadd : b.addTraced s with
    | error e => rw [hadd] at h; exact absurd h (by simp)
    | ok trip =>
      obtain ⟨b1, fl, evs⟩ := trip
      rw [hadd] at h
      dsimp only at h
      obtain ⟨hsz, hlen, heq⟩ := addTraced_spec b s hadd
      obtain ⟨hsz', hlen', insN1, evN1, hi, he, heq'⟩ := runBeamAdds_spec rest b1 _ _ h
      refine ⟨hsz'.trans hsz, fun hb => hsz ▸ (hlen' (hsz ▸ hlen hb)), ?_⟩
      refine ⟨(if fl then [s] else []) ++ insN1, evs ++ evN1, ?_, ?_, ?_⟩
      · rw [hi]; cases fl <;> simp
      · rw [he]; simp
      · rw [← Multiset.coe_add, ← Multiset.coe_add]
        have e1 : (b'.heap : Multiset State) + ((evs : Multiset State) + (evN1 : Multiset State)) =
            ((b'.heap : Multiset State) + (evN1 : Multiset State)) + (evs : Multiset State) := by
          abel
        have e2 : ((b1.heap : Multiset State) + (insN1 : Multiset State)) + (evs : Multiset State) =
            ((b1.heap : Multiset State) + (evs : Multiset State)) + (insN1 : Multiset State) := by
          abel
        cases fl with
        | true =>
          have hs : (([s] : List State) : Multiset State) = {s} := rfl
          rw [if_pos rfl] at heq
          rw [← hs] at heq
          rw [if_pos rfl, e1, heq', e2, heq]
          abel
        | false =>
          rw [if_neg (by simp)] at heq
          rw [add_zero] at heq
          rw [if_neg (by simp), Multiset.coe_nil, zero_add, e1, heq', e2, heq]

/-- C3: after any sequence of `add` calls on a plain `Beam` of capacity `k`
started empty, the beam holds at most `k` members; the heap plus the evicted
states equals (as a multiset) the inserted states, so the heap is exactly the
inserted-and-never-evicted states; and `get_top_state` returns a member of that
collection whose `log_prob` is maximal in it. -/
theorem C3_beam_capacity_and_top (k : ℕ) (ss : List State) (b : Beam)
    (ins ev : List State)
    (hrun : runBeamAdds (Beam.mk k []) ss [] [] = .ok (b, ins, ev)) :
    b.heap.length ≤ k ∧
    (b.heap : Multiset State) + (ev : Multiset State) = (ins : Multiset State) ∧
    ∀ t, b.getTopState = .ok t →
      t ∈ ((ins : Multiset State) - (ev : Multiset State)) ∧
      ∀ x ∈ ((ins : Multiset State) - (ev : Multiset State)), x.logProb ≤ t.logProb := by
  obtain ⟨hsz, hlen, insN, evN, hi, he, heq⟩ := runBeamAdds_spec ss (Beam.mk k []) [] [] hrun
  dsimp only at hsz hlen heq
  simp only [List.nil_append] at hi he
  subst hi; subst he
  have hmain : (b.heap : Multiset State) + (ev : Multiset State) = (ins : Multiset State) := by
    rw [heq, Multiset.coe_nil, zero_add]
  have hdiff : (ins : Multiset State) - (ev : Multiset State) = (b.heap : Multiset State) := by
    rw [← hmain, add_tsub_cancel_right]
  refine ⟨by simpa using hlen (by simp), hmain, ?_⟩
  intro t ht
  rw [hdiff]
  unfold Beam.getTopState at ht
  cases hh : b.heap with
  | nil => rw [hh] at ht; exact absurd ht (by simp)
  | cons x xs =>
    rw [hh] at ht
    dsimp only at ht
    simp only [Except.ok.injEq] at ht
    subst ht
    constructor
    · rcases pyMaxFold_mem x xs with h | h
      · rw [h]; simp
      · simp [List.mem_cons_of_mem _ h]
    · intro z hz
      obtain ⟨h1, h2⟩ := pyMaxFold_le x xs
      rcases List.mem_cons.mp (by simpa using hz) with rfl | hzz
      · exact h1
      · exact h2 z hzz

/-- Concrete states for the C3 witness run. -/
def c3s0 : State := { id := 0, logProb := 1 }

def c3s1 : State := { id := 1, logProb := 3 }

def c3s2 : State := { id := 2, logProb := 2 }

/-- Witness for C3: a concrete run with capacity 1 where the second add evicts
the first and the third add is rejected. -/
theorem C3_beam_capacity_and_top_witness :
    (Beam.mk 1 [c3s1]).heap.length ≤ 1 ∧
    (([c3s1] : List State) : Multiset State) + (([c3s0] : List State) : Multiset State) =
      (([c3s0, c3s1] : List State) : Multiset State) ∧
    ∀ t, (Beam.mk 1 [c3s1]).getTopState = .ok t →
      t ∈ ((([c3s0, c3s1] : List State) : Multiset State) -
        (([c3s0] : List State) : Multiset State)) ∧
      ∀ x ∈ ((([c3s0, c3s1] : List State) : Multiset State) -
        (([c3s0] : List State) : Multiset State)), x.logProb ≤ t.logProb :=
  C3_beam_capacity_and_top 1 [c3s0, c3s1, c3s2] (Beam.mk 1 [c3s1]) [c3s0, c3s1] [c3s0]
    (by rfl)

/-- The representation of `state_dict`: normally a Python `dict` (an assoc
list preserving insertion order, as Python dicts do), but `HashedBeam.empty`
(lines 417-422) erroneously replaces it with the Python *list* `[]`. -/
inductive DictRep
  | map (entries : List (PyHashValue × State))
  | pylist
deriving DecidableEq, Repr

/-- `d[h]` lookup in the assoc-list model of a Python dict. -/
def lookupD : List (PyHashValue × State) → PyHashValue → Option State
  | [], _ => none
  | (k, v) :: rest, h => if k = h then some v else lookupD rest h

/-- `d[h] = v` on a Python dict: overwrite in place if the key exists (the key
keeps its original insertion position), otherwise append. -/
def setD : List (PyHashValue × State) → PyHashValue → State → List (PyHashValue × State)
  | [], h, v => [(h, v)]
  | (k, w) :: rest, h, v => if k = h then (k, v) :: rest else (k, w) :: setD rest h v

/-- `del d[h]` on a Python dict. -/
def delD : List (PyHashValue × State) → PyHashValue → List (PyHashValue × State)
  | [], _ => []
  | (k, w) :: rest, h => if k = h then rest else (k, w) :: delD rest h

/-- Model of `HashedBeam` (lines 315-428): the heap plus the
`state_dict` signature map. -/
structure HashedBeam where
  beamSize : ℕ
  heap : List State
  sdict : DictRep
deriving DecidableEq, Repr

/-- `self.state_dict[state_hash].valid = False`: the dict entry aliases the
heap entry with the same object identity, so the flag is cleared on the unique
heap entry carrying that id. -/
def markInvalid (heap : List State) (tid : ℕ) : List State :=
  heap.map (fun e => if e.id = tid then { e with valid := false } else e)

/-- `HashedBeam._fix_beam_min` (lines 367-373): pop invalid states off the top
of the min-heap until the minimum is valid; if the heap runs out (or was
empty), `self.beam[0]` raises `IndexError`. -/
def fixBeamMin (heap : List State) : Except PyError (List State) :=
  match heap.dropWhile (fun e => !e.valid) with
  | [] => .error .indexError
  | h :: t => .ok (h :: t)

/-- `HashedBeam.add` (lines 375-415).  `len(self)` is the signature-map size.
In the `.pylist` state left behind by `HashedBeam.empty`, `state_hash in []`
is `False` and the item assignment `[][state_hash] = state` raises `TypeError`
for a tuple hash (list indices must be integers) or `IndexError` for an
integer hash (assignment out of range); with `beam_size = 0` the guard
`self.beam[0]` on the emptied heap raises `IndexError` first. -/
def HashedBeam.add (hb : HashedBeam) (s : State) : Except PyError (HashedBeam × Bool) :=
  match hb.sdict with
  | .pylist =>
    if 0 = hb.beamSize then .error .indexError
    else
      match s.getHash with
      | .tuple _ => .error .typeError
      | .intId _ => .error .indexError
  | .map entries =>
    match lookupD entries s.getHash with
    | some old =>
      if old.logProb < s.logProb then
        match fixBeamMin (List.orderedInsert stateLE s (markInvalid hb.heap old.id)) with
        | .error e => .error e
        | .ok heap2 =>
          .ok (⟨hb.beamSize, heap2, .map (setD entries s.getHash s)⟩, true)
      else .ok (hb, false)
    | none =>
      if entries.length = hb.beamSize then
        match hb.heap with
        | [] => .error .indexError
        | m :: rest =>
          if m.logProb < s.logProb then
            match fixBeamMin (List.orderedInsert stateLE s rest) with
            | .error e => .error e
            | .ok heap2 =>
              .ok (⟨hb.beamSize, heap2, .map (delD (setD entries s.getHash s) m.getHash)⟩,
                true)
          else .ok (hb, false)
      else
        .ok (⟨hb.beamSize, List.orderedInsert stateLE s hb.heap,
          .map (setD entries s.getHash s)⟩, true)

/-- `HashedBeam.empty` (lines 417-422): resets the heap to `[]` but sets
`state_dict` to the Python *list* `[]` instead of a fresh dict. -/
def HashedBeam.emptied (hb : HashedBeam) : HashedBeam :=
  ⟨hb.beamSize, [], .pylist⟩

/-- A freshly constructed `HashedBeam` (lines 331-341). -/
def freshHashedBeam (k : ℕ) : HashedBeam := ⟨k, [], .map []⟩

/-- `len(self)` for a `HashedBeam` (lines 427-428): the signature-map size. -/
def HashedBeam.dictSize (hb : HashedBeam) : ℕ :=
  match hb.sdict with
  | .map entries => entries.length
  | .pylist => 0

/-- Lookup in the signature map of a `HashedBeam`. -/
def HashedBeam.dictLookup (hb : HashedBeam) (h : PyHashValue) : Option State :=
  match hb.sdict with
  | .map entries => lookupD entries h
  | .pylist => none

/-- A freshly constructed `State` as the beam-search driver builds them:
valid, with a new object identity and the given score and hash tuple. -/
def mkHState (n : ℕ) (lp : ℚ) (sg : Sig) : State :=
  { id := n, logProb := lp, hashTuple := some sg }

/-- Run a sequence of `HashedBeam.add` calls on freshly constructed states
(scores and signatures given by `inputs`), threading a fresh object id. -/
def runHashedAddsAux : HashedBeam → ℕ → List (ℚ × Sig) → Except PyError HashedBeam
  | hb, _, [] => .ok hb
  | hb, n, (lp, sg) :: rest =>
    match hb.add (mkHState n lp sg) with
    | .error e => .error e
    | .ok (hb', _) => runHashedAddsAux hb' (n + 1) rest

/-- Run a sequence of `HashedBeam.add` calls on a fresh `HashedBeam` of
capacity `k`. -/
def runHashedAdds (k : ℕ) (inputs : List (ℚ × Sig)) : Except PyError HashedBeam :=
  runHashedAddsAux (freshHashedBeam k) 0 inputs

lemma lookupD_mem : ∀ {entries : List (PyHashValue × State)} {h : PyHashValue} {v : State},
    lookupD entries h = some v → (h, v) ∈ entries
  | [], _, _, hl => by simp [lookupD] at hl
  | (k, w) :: rest, h, v, hl => by
    rw [lookupD] at hl
    split at hl
    · next hk =>
      obtain rfl := Option.some.inj hl
      subst hk
      exact List.mem_cons_self _ _
    · exact List.mem_cons_of_mem _ (lookupD_mem hl)

lemma lookupD_eq_none : ∀ {entries : List (PyHashValue × State)} {h : PyHashValue},
    lookupD entries h = none → ∀ kv ∈ entries, kv.1 ≠ h
  | [], _, _ => by simp
  | (k, w) :: rest, h, hl => by
    rw [lookupD] at hl
    split at hl
    · exact absurd hl (by simp)
    · next hk =>
      intro kv hkv
      rcases List.mem_cons.mp hkv with rfl | hkv
      · exact hk
      · exact lookupD_eq_none hl kv hkv

lemma mem_lookupD : ∀ {entries : List (PyHashValue × State)} {h : PyHashValue} {v : State},
    (entries.map Prod.fst).Nodup → (h, v) ∈ entries → lookupD entries h = some v
  | [], _, _, _, hm => by simp at hm
  | (k, w) :: rest, h, v, hnd, hm => by
    simp only [List.map_cons, List.nodup_cons] at hnd
    rw [lookupD]
    rcases List.mem_cons.mp hm with heq | hm'
    · injection heq with h1 h2
      rw [if_pos h1.symm, h2]
    · have hk : k ≠ h := by
        intro heq
        apply hnd.1
        rw [heq]
        exact List.mem_map_of_mem Prod.fst hm'
      rw [if_neg hk]
      exact mem_lookupD hnd.2 hm'

lemma lookupD_setD : ∀ (entries : List (PyHashValue × State)) (h : PyHashValue) (v : State),
    lookupD (setD entries h v) h = some v
  | [], h, v => by simp [setD, lookupD]
  | (k, w) :: rest, h, v => by
    rw [setD]
    split
    · next hk => rw [lookupD, if_pos hk]
    · next hk => rw [lookupD, if_neg hk]; exact lookupD_setD rest h v

lemma setD_eq_append : ∀ {entries : List (PyHashValue × State)} {h : PyHashValue} (v : State),
    (∀ kv ∈ entries, kv.1 ≠ h) → setD entries h v = entries ++ [(h, v)]
  | [], h, v, _ => rfl
  | (k, w) :: rest, h, v, hno => by
    rw [setD, if_neg (hno (k, w) (List.mem_cons_self _ _)),
      setD_eq_append v (fun kv hkv => hno kv (List.mem_cons_of_mem _ hkv))]
    simp

lemma keys_setD_mem : ∀ {entries : List (PyHashValue × State)} {h : PyHashValue} (v : State),
    h ∈ entries.map Prod.fst → (setD entries h v).map Prod.fst = entries.map Prod.fst
  | [], h, v, hm => by simp at hm
  | (k, w) :: rest, h, v, hm => by
    rw [setD]
    split
    · simp
    · next hk =>
      have : h ∈ rest.map Prod.fst := by
        simp only [List.map_cons] at hm
        rcases List.mem_cons.mp hm with heq | hm'
        · exact absurd heq.symm hk
        · exact hm'
      simp [keys_setD_mem v this]

lemma length_setD_mem {entries : List (PyHashValue × State)} {h : PyHashValue} (v : State)
    (hm : h ∈ entries.map Prod.fst) : (setD entries h v).length = entries.length := by
  have := congrArg List.length (keys_setD_mem v hm)
  simpa using this

lemma mem_setD_of_ne : ∀ {entries : List (PyHashValue × State)} {h : PyHashValue} (v : State)
    {kv : PyHashValue × State}, kv ∈ entries → kv.1 ≠ h → kv ∈ setD entries h v
  | [], _, _, _, hm, _ => by simp at hm
  | (k, w) :: rest, h, v, kv, hm, hne => by
    rw [setD]
    rcases List.mem_cons.mp hm with rfl | hm'
    · rw [if_neg (by simpa using hne)]
      exact List.mem_cons_self _ _
    · split
      · exact List.mem_cons_of_mem _ hm'
      · exact List.mem_cons_of_mem _ (mem_setD_of_ne v hm' hne)

lemma setD_self : ∀ (entries : List (PyHashValue × State)) (h : PyHashValue) (v : State),
    (h, v) ∈ setD entries h v
  | [], h, v => by simp [setD]
  | (k, w) :: rest, h, v => by
    rw [setD]
    split
    · next hk => subst hk; exact List.mem_cons_self _ _
    · exact List.mem_cons_of_mem _ (setD_self rest h v)

lemma mem_setD : ∀ {entries : List (PyHashValue × State)} {h : PyHashValue} {v : State}
    {kv : PyHashValue × State}, (entries.map Prod.fst).Nodup → kv ∈ setD entries h v →
    kv = (h, v) ∨ (kv ∈ entries ∧ kv.1 ≠ h)
  | [], h, v, kv, _, hm => by
    rw [setD] at hm
    exact Or.inl (by simpa using hm)
  | (k, w) :: rest, h, v, kv, hnd, hm => by
    simp only [List.map_cons, List.nodup_cons] at hnd
    rw [setD] at hm
    split at hm
    · next hk =>
      subst hk
      rcases List.mem_cons.mp hm with rfl | hm'
      · exact Or.inl rfl
      · refine Or.inr ⟨List.mem_cons_of_mem _ hm', ?_⟩
        intro hkv
        exact hnd.1 (hkv ▸ List.mem_map_of_mem Prod.fst hm')
    · next hk =>
      rcases List.mem_cons.mp hm with rfl | hm'
      · exact Or.inr ⟨List.mem_cons_self _ _, hk⟩
      · rcases mem_setD hnd.2 hm' with rfl | ⟨hmem, hne⟩
        · exact Or.inl rfl
        · exact Or.inr ⟨List.mem_cons_of_mem _ hmem, hne⟩

lemma delD_sublist : ∀ (entries : List (PyHashValue × State)) (h : PyHashValue),
    List.Sublist (delD entries h) entries
  | [], _ => List.Sublist.refl _
  | (k, w) :: rest, h => by
    rw [delD]
    split
    · exact List.sublist_cons_self _ _
    · exact List.Sublist.cons₂ _ (delD_sublist rest h)

lemma mem_delD : ∀ {entries : List (PyHashValue × State)} {h : PyHashValue}
    {kv : PyHashValue × State}, kv ∈ entries → kv.1 ≠ h → kv ∈ delD entries h
  | [], _, _, hm, _ => by simp at hm
  | (k, w) :: rest, h, kv, hm, hne => by
    rw [delD]
    split
    · next hk =>
      subst hk
      rcases List.mem_cons.mp hm with rfl | hm'
      · exact absurd rfl hne
      · exact hm'
    · rcases List.mem_cons.mp hm with rfl | hm'
      · exact List.mem_cons_self _ _
      · exact List.mem_cons_of_mem _ (mem_delD hm' hne)

lemma not_mem_delD_key : ∀ {entries : List (PyHashValue × State)} {h : PyHashValue}
    {kv : PyHashValue × State}, (entries.map Prod.fst).Nodup → kv ∈ delD entries h →
    kv.1 ≠ h
  | [], _, _, _, hm => by simp [delD] at hm
  | (k, w) :: rest, h, kv, hnd, hm => by
    simp only [List.map_cons, List.nodup_cons] at hnd
    rw [delD] at hm
    split at hm
    · next hk =>
      subst hk
      intro hkv
      exact hnd.1 (hkv ▸ List.mem_map_of_mem Prod.fst hm)
    · next hk =>
      rcases List.mem_cons.mp hm with rfl | hm'
      · exact hk
      · exact not_mem_delD_key hnd.2 hm'

lemma length_delD_mem : ∀ {entries : List (PyHashValue × State)} {h : PyHashValue},
    h ∈ entries.map Prod.fst → (delD entries h).length + 1 = entries.length
  | [], _, hm => by simp at hm
  | (k, w) :: rest, h, hm => by
    rw [delD]
    split
    · simp
    · next hk =>
      have : h ∈ rest.map Prod.fst := by
        simp only [List.map_cons] at hm
        rcases List.mem_cons.mp hm with heq | hm'
        · exact absurd heq.symm hk
        · exact hm'
      simp [length_delD_mem this]

lemma markInvalid_map_id (l : List State) (tid : ℕ) :
    (markInvalid l tid).map State.id = l.map State.id := by
  induction l with
  | nil => rfl
  | cons e t ih =>
    simp only [markInvalid, List.map_cons] at ih ⊢
    rw [ih]
    split
    · rfl
    · rfl

lemma markInvalid_sorted {l : List State} (tid : ℕ) (h : List.Sorted stateLE l) :
    List.Sorted stateLE (markInvalid l tid) := by
  refine h.map _ ?_
  intro a b hab
  unfold stateLE at hab ⊢
  split <;> split <;> exact hab

lemma mem_markInvalid_of_ne {l : List State} {e : State} (tid : ℕ) (he : e ∈ l)
    (hne : e.id ≠ tid) : e ∈ markInvalid l tid := by
  unfold markInvalid
  have := List.mem_map_of_mem
    (fun x : State => if x.id = tid then { x with valid := false } else x) he
  dsimp only at this
  rwa [if_neg hne] at this

lemma of_mem_markInvalid {l : List State} {e : State} {tid : ℕ}
    (he : e ∈ markInvalid l tid) :
    ∃ e0 ∈ l, e = if e0.id = tid then { e0 with valid := false } else e0 := by
  obtain ⟨e0, he0, heq⟩ := List.mem_map.mp he
  exact ⟨e0, he0, heq.symm⟩

lemma valid_mem_markInvalid {l : List State} {e : State} {tid : ℕ}
    (he : e ∈ markInvalid l tid) (hv : e.valid = true) : e ∈ l ∧ e.id ≠ tid := by
  obtain ⟨e0, he0, heq⟩ := of_mem_markInvalid he
  by_cases hid : e0.id = tid
  · rw [if_pos hid] at heq
    rw [heq] at hv
    simp at hv
  · rw [if_neg hid] at heq
    subst heq
    exact ⟨he0, hid⟩

lemma invalid_of_mem_markInvalid {l : List State} {e : State} {tid : ℕ}
    (he : e ∈ markInvalid l tid) (hid : e.id = tid) : e.valid = false := by
  obtain ⟨e0, he0, heq⟩ := of_mem_markInvalid he
  by_cases h0 : e0.id = tid
  · rw [if_pos h0] at heq
    rw [heq]
  · rw [if_neg h0] at heq
    subst heq
    exact absurd hid h0

lemma mem_dropWhile_of_not {l : List State} {e : State} {p : State → Bool}
    (he : e ∈ l) (hp : p e = false) : e ∈ l.dropWhile p := by
  induction l with
  | nil => simp at he
  | cons x t ih =>
    rw [List.dropWhile_cons]
    rcases List.mem_cons.mp he with rfl | he'
    · rw [hp]
      simp
    · split
      · exact ih he'
      · exact List.mem_cons_of_mem _ he'

lemma dropWhile_head_not {p : State → Bool} :
    ∀ {l : List State} {e : State} {t : List State},
      l.dropWhile p = e :: t → p e = false
  | [], e, t, h => by simp at h
  | x :: xs, e, t, h => by
    rw [List.dropWhile_cons] at h
    split at h
    · exact dropWhile_head_not h
    · next hx =>
      injection h with h1 _
      subst h1
      simpa using hx

lemma fixBeamMin_head_valid {l r : List State} (h : fixBeamMin l = .ok r) :
    ∀ e t, r = e :: t → e.valid = true := by
  unfold fixBeamMin at h
  split at h
  · exact absurd h (by simp)
  · next e0 t0 hdrop =>
    obtain rfl := Except.ok.inj h
    intro e t het
    injection het with h1 h2
    subst h1
    have := dropWhile_head_not hdrop
    simpa using this

lemma fixBeamMin_sublist {l r : List State} (h : fixBeamMin l = .ok r) :
    List.Sublist r l := by
  unfold fixBeamMin at h
  split at h
  · exact absurd h (by simp)
  · next e0 t0 hdrop =>
    obtain rfl := Except.ok.inj h
    rw [← hdrop]
    exact List.dropWhile_sublist _

lemma fixBeamMin_ok_of_valid_mem {l : List State} {e : State} (he : e ∈ l)
    (hv : e.valid = true) : ∃ r, fixBeamMin l = .ok r := by
  have hmem : e ∈ l.dropWhile (fun y : State => !y.valid) :=
    mem_dropWhile_of_not he (by simpa using hv)
  unfold fixBeamMin
  split
  · next hdrop => rw [hdrop] at hmem; simp at hmem
  · exact ⟨_, rfl⟩

lemma mem_fixBeamMin_of_valid {l r : List State} (h : fixBeamMin l = .ok r)
    {e : State} (he : e ∈ l) (hv : e.valid = true) : e ∈ r := by
  unfold fixBeamMin at h
  split at h
  · exact absurd h (by simp)
  · next e0 t0 hdrop =>
    obtain rfl := Except.ok.inj h
    rw [← hdrop]
    exact mem_dropWhile_of_not he (by simpa using hv)

lemma fixBeamMin_dropped {l r : List State} (h : fixBeamMin l = .ok r) :
    ∃ p, l = p ++ r ∧ ∀ e ∈ p, e.valid = false := by
  unfold fixBeamMin at h
  split at h
  · exact absurd h (by simp)
  · next e0 t0 hdrop =>
    obtain rfl := Except.ok.inj h
    refine ⟨l.takeWhile (fun y : State => !y.valid), ?_, ?_⟩
    · rw [← hdrop, List.takeWhile_append_dropWhile]
    · intro e he
      have := List.mem_takeWhile_imp he
      simpa using this

lemma orderedInsert_head {s : State} {l : List State} {e : State} {t : List State}
    (h : List.orderedInsert stateLE s l = e :: t) :
    e = s ∨ ∃ t0, l = e :: t0 := by
  cases l with
  | nil =>
    rw [List.orderedInsert_nil] at h
    injection h with h1 _
    exact Or.inl h1.symm
  | cons b rest =>
    rw [List.orderedInsert] at h
    split at h
    · injection h with h1 _
      exact Or.inl h1.symm
    · injection h with h1 _
      exact Or.inr ⟨rest, by rw [h1]⟩

lemma mem_id_eq {l : List State} (hnd : (l.map State.id).Nodup) {a b : State}
    (ha : a ∈ l) (hb : b ∈ l) (hid : a.id = b.id) : a = b := by
  induction l with
  | nil => simp at ha
  | cons x t ih =>
    simp only [List.map_cons, List.nodup_cons] at hnd
    rcases List.mem_cons.mp ha with rfl | ha' <;> rcases List.mem_cons.mp hb with rfl | hb'
    · rfl
    · exact absurd (hid ▸ List.mem_map_of_mem State.id hb') hnd.1
    · exact absurd (hid ▸ List.mem_map_of_mem State.id ha') hnd.1
    · exact ih hnd.2 ha' hb'

lemma id_of_mem_markInvalid {l : List State} {e : State} {tid : ℕ}
    (he : e ∈ markInvalid l tid) : ∃ e0 ∈ l, e.id = e0.id := by
  obtain ⟨e0, he0, heq⟩ := of_mem_markInvalid he
  refine ⟨e0, he0, ?_⟩
  rw [heq]
  split
  · rfl
  · rfl

/-- Well-formedness of the signature map relative to the heap: keys are
distinct, every entry is a valid heap member keyed by its own hash, and every
valid heap member is registered under its hash. -/
def DictWF (heap : List State) (entries : List (PyHashValue × State)) : Prop :=
  (entries.map Prod.fst).Nodup ∧
  (∀ kv ∈ entries, kv.2.valid = true ∧ kv.2.getHash = kv.1 ∧ kv.2 ∈ heap) ∧
  (∀ e ∈ heap, e.valid = true → (e.getHash, e) ∈ entries)

/-- Invariant of a reachable `HashedBeam` (all object ids below `n`): the heap
is sorted, ids are distinct, the heap minimum is valid, and the signature map
is well-formed. -/
def HBWF (hb : HashedBeam) (n : ℕ) : Prop :=
  List.Sorted stateLE hb.heap ∧
  (hb.heap.map State.id).Nodup ∧
  (∀ e ∈ hb.heap, e.id < n) ∧
  (∀ e t, hb.heap = e :: t → e.valid = true) ∧
  ∃ entries, hb.sdict = DictRep.map entries ∧ DictWF hb.heap entries

lemma HBWF_mono {hb : HashedBeam} {n m : ℕ} (h : HBWF hb n) (hnm : n ≤ m) : HBWF hb m := by
  obtain ⟨h1, h2, h3, h4, h5⟩ := h
  exact ⟨h1, h2, fun e he => lt_of_lt_of_le (h3 e he) hnm, h4, h5⟩

lemma HBWF_fresh (k : ℕ) : HBWF (freshHashedBeam k) 0 := by
  refine ⟨List.sorted_nil, List.nodup_nil, by simp [freshHashedBeam], ?_, [], rfl, ?_⟩
  · intro e t het
    simp [freshHashedBeam] at het
  · exact ⟨List.nodup_nil, by simp, by simp [freshHashedBeam]⟩

lemma add_WF {k : ℕ} {heap : List State} {sdict : DictRep} {n : ℕ}
    (hwf : HBWF ⟨k, heap, sdict⟩ n) {s : State} (hv : s.valid = true) (hid : s.id = n)
    {hb' : HashedBeam} {fl : Bool}
    (hadd : HashedBeam.add ⟨k, heap, sdict⟩ s = .ok (hb', fl)) :
    HBWF hb' (n + 1) := by
  obtain ⟨hsort, hnd, hlt, hhead, entries, hdict, hkeysnd, hvals, hvd⟩ := hwf
  dsimp only at hdict
  subst hdict
  have hfreshid : ∀ e ∈ heap, e.id ≠ s.id := by
    intro e he
    rw [hid]
    exact Nat.ne_of_lt (hlt e he)
  have hsidnotin : s.id ∉ heap.map State.id := by
    intro hmem
    obtain ⟨e, he, heid⟩ := List.mem_map.mp hmem
    exact hfreshid e he heid
  unfold HashedBeam.add at hadd
  dsimp only at hadd
  cases hlk : lookupD entries s.getHash with
  | some old =>
    rw [hlk] at hadd
    dsimp only at hadd
    have hmemold : (s.getHash, old) ∈ entries := lookupD_mem hlk
    obtain ⟨holdv, holdh, holdmem⟩ := hvals _ hmemold
    dsimp only at holdv holdh holdmem
    split at hadd
    · next hlto =>
      cases hfix : fixBeamMin (List.orderedInsert stateLE s (markInvalid heap old.id)) with
      | error e => rw [hfix] at hadd; exact absurd hadd (by simp)
      | ok heap3 =>
        rw [hfix] at hadd
        dsimp only at hadd
        simp only [Except.ok.injEq, Prod.mk.injEq] at hadd
        obtain ⟨rfl, rfl⟩ := hadd
        have hmem2 : ∀ e : State,
            e ∈ List.orderedInsert stateLE s (markInvalid heap old.id) ↔
              e = s ∨ e ∈ markInvalid heap old.id := fun e => List.mem_orderedInsert stateLE
        have hsin2 : s ∈ List.orderedInsert stateLE s (markInvalid heap old.id) :=
          (hmem2 s).mpr (Or.inl rfl)
        have hsub3 := fixBeamMin_sublist hfix
        refine ⟨?_, ?_, ?_, fixBeamMin_head_valid hfix, setD entries s.getHash s, rfl,
          ?_, ?_, ?_⟩
        · exact List.Pairwise.sublist hsub3
            ((markInvalid_sorted old.id hsort).orderedInsert s _)
        · have hperm2 : List.Perm
              ((List.orderedInsert stateLE s (markInvalid heap old.id)).map State.id)
              (s.id :: heap.map State.id) := by
            have hp := (List.perm_orderedInsert stateLE s (markInvalid heap old.id)).map State.id
            rw [List.map_cons, markInvalid_map_id] at hp
            exact hp
          have hnd2 : ((List.orderedInsert stateLE s (markInvalid heap old.id)).map
              State.id).Nodup :=
            hperm2.nodup_iff.mpr (List.nodup_cons.mpr ⟨hsidnotin, hnd⟩)
          exact (hsub3.map State.id).nodup hnd2
        · intro e he
          rcases (hmem2 e).mp (hsub3.mem he) with rfl | he1
          · rw [hid]; exact Nat.lt_succ_self n
          · obtain ⟨e0, he0, heid⟩ := id_of_mem_markInvalid he1
            rw [heid]
            exact Nat.lt_succ_of_lt (hlt e0 he0)
        · rw [keys_setD_mem s (List.mem_map_of_mem Prod.fst hmemold)]
          exact hkeysnd
        · intro kv hkv
          rcases mem_setD hkeysnd hkv with rfl | ⟨hkvmem, hkvne⟩
          · exact ⟨hv, rfl, mem_fixBeamMin_of_valid hfix hsin2 hv⟩
          · obtain ⟨hkvv, hkvh, hkvheap⟩ := hvals _ hkvmem
            refine ⟨hkvv, hkvh, ?_⟩
            have hkvid : kv.2.id ≠ old.id := by
              intro hideq
              have := mem_id_eq hnd hkvheap holdmem hideq
              rw [this, holdh] at hkvh
              exact hkvne hkvh.symm
            exact mem_fixBeamMin_of_valid hfix
              ((hmem2 kv.2).mpr (Or.inr (mem_markInvalid_of_ne old.id hkvheap hkvid))) hkvv
        · intro e he hev
          rcases (hmem2 e).mp (hsub3.mem he) with rfl | he1
          · exact setD_self entries e.getHash e
          · obtain ⟨heheap, heid⟩ := valid_mem_markInvalid he1 hev
            have hein : (e.getHash, e) ∈ entries := hvd e heheap hev
            have hene : e.getHash ≠ s.getHash := by
              intro heq
              have h1 : lookupD entries s.getHash = some e := by
                rw [← heq]
                exact mem_lookupD hkeysnd hein
              rw [hlk] at h1
              obtain rfl := Option.some.inj h1
              exact heid rfl
            exact mem_setD_of_ne s hein hene
    · next hlto =>
      simp only [Except.ok.injEq, Prod.mk.injEq] at hadd
      obtain ⟨rfl, rfl⟩ := hadd
      exact HBWF_mono
        ⟨hsort, hnd, hlt, hhead, entries, rfl, hkeysnd, hvals, hvd⟩ (Nat.le_succ n)
  | none =>
    rw [hlk] at hadd
    dsimp only at hadd
    have hkeynot : ∀ kv ∈ entries, kv.1 ≠ s.getHash := lookupD_eq_none hlk
    have happend : setD entries s.getHash s = entries ++ [(s.getHash, s)] :=
      setD_eq_append s hkeynot
    have hkeyfresh : s.getHash ∉ entries.map Prod.fst := by
      intro hmem
      obtain ⟨kv, hkv, heq⟩ := List.mem_map.mp hmem
      exact hkeynot kv hkv heq
    have hndset : ((setD entries s.getHash s).map Prod.fst).Nodup := by
      rw [happend, List.map_append]
      refine List.Nodup.append hkeysnd (by simp) ?_
      intro a ha hb
      simp only [List.map_cons, List.map_nil, List.mem_singleton] at hb
      subst hb
      exact hkeyfresh ha
    split at hadd
    · next hfull =>
      cases hheap : heap with
      | nil => rw [hheap] at hadd; exact absurd hadd (by simp)
      | cons m rest =>
        subst hheap
        dsimp only at hadd
        split at hadd
        · next hltm =>
          cases hfix : fixBeamMin (List.orderedInsert stateLE s rest) with
          | error e => rw [hfix] at hadd; exact absurd hadd (by simp)
          | ok heap3 =>
            rw [hfix] at hadd
            dsimp only at hadd
            simp only [Except.ok.injEq, Prod.mk.injEq] at hadd
            obtain ⟨rfl, rfl⟩ := hadd
            have hmv : m.valid = true := hhead m rest rfl
            have hmdict : (m.getHash, m) ∈ entries := hvd m (List.mem_cons_self m rest) hmv
            have hmne : m.getHash ≠ s.getHash := hkeynot _ hmdict
            have hmem2 : ∀ e : State, e ∈ List.orderedInsert stateLE s rest ↔
                e = s ∨ e ∈ rest := fun e => List.mem_orderedInsert stateLE
            have hsin2 : s ∈ List.orderedInsert stateLE s rest :=
              (hmem2 s).mpr (Or.inl rfl)
            have hsub3 := fixBeamMin_sublist hfix
            have hndrest : (rest.map State.id).Nodup :=
              (List.nodup_cons.mp (by simpa using hnd)).2
            have hmidrest : m.id ∉ rest.map State.id :=
              (List.nodup_cons.mp (by simpa using hnd)).1
            refine ⟨?_, ?_, ?_, fixBeamMin_head_valid hfix,
              delD (setD entries s.getHash s) m.getHash, rfl, ?_, ?_, ?_⟩
            · exact List.Pairwise.sublist hsub3 (hsort.of_cons.orderedInsert s _)
            · have hperm2 : List.Perm
                  ((List.orderedInsert stateLE s rest).map State.id)
                  (s.id :: rest.map State.id) := by
                have hp := (List.perm_orderedInsert stateLE s rest).map State.id
                rw [List.map_cons] at hp
                exact hp
              have hsnotrest : s.id ∉ rest.map State.id := by
                intro hmem
                apply hsidnotin
                simp only [List.map_cons]
                exact List.mem_cons_of_mem _ hmem
              have hnd2 : ((List.orderedInsert stateLE s rest).map State.id).Nodup :=
                hperm2.nodup_iff.mpr (List.nodup_cons.mpr ⟨hsnotrest, hndrest⟩)
              exact (hsub3.map State.id).nodup hnd2
            · intro e he
              rcases (hmem2 e).mp (hsub3.mem he) with rfl | he1
              · rw [hid]; exact Nat.lt_succ_self n
              · exact Nat.lt_succ_of_lt (hlt e (List.mem_cons_of_mem _ he1))
            · exact (List.Sublist.map Prod.fst (delD_sublist _ _)).nodup hndset
            · intro kv hkv
              have hkvset : kv ∈ setD entries s.getHash s := (delD_sublist _ _).mem hkv
              have hkvnem : kv.1 ≠ m.getHash := not_mem_delD_key hndset hkv
              rw [happend] at hkvset
              rcases List.mem_append.mp hkvset with hkvmem | hkvlast
              · obtain ⟨hkvv, hkvh, hkvheap⟩ := hvals _ hkvmem
                refine ⟨hkvv, hkvh, ?_⟩
                rcases List.mem_cons.mp hkvheap with heqm | hkvrest
                · rw [heqm] at hkvh
                  exact absurd hkvh.symm hkvnem
                · exact mem_fixBeamMin_of_valid hfix ((hmem2 kv.2).mpr (Or.inr hkvrest)) hkvv
              · have : kv = (s.getHash, s) := by simpa using hkvlast
                subst this
                exact ⟨hv, rfl, mem_fixBeamMin_of_valid hfix hsin2 hv⟩
            · intro e he hev
              rcases (hmem2 e).mp (hsub3.mem he) with rfl | he1
              · refine mem_delD ?_ ?_
                · rw [happend]
                  exact List.mem_append.mpr (Or.inr (by simp))
                · exact fun heq => hmne heq.symm
              · have hein : (e.getHash, e) ∈ entries :=
                  hvd e (List.mem_cons_of_mem _ he1) hev
                have hene : e.getHash ≠ m.getHash := by
                  intro heq
                  have h1 : lookupD entries m.getHash = some e := by
                    rw [← heq]
                    exact mem_lookupD hkeysnd hein
                  have h2 : lookupD entries m.getHash = some m := mem_lookupD hkeysnd hmdict
                  rw [h1] at h2
                  obtain rfl := Option.some.inj h2
                  exact hmidrest (List.mem_map_of_mem State.id he1)
                refine mem_delD ?_ hene
                rw [happend]
                exact List.mem_append.mpr (Or.inl hein)
        · next hltm =>
          simp only [Except.ok.injEq, Prod.mk.injEq] at hadd
          obtain ⟨rfl, rfl⟩ := hadd
          exact HBWF_mono
            ⟨hsort, hnd, hlt, hhead, entries, rfl, hkeysnd, hvals, hvd⟩ (Nat.le_succ n)
    · next hfull =>
      simp only [Except.ok.injEq, Prod.mk.injEq] at hadd
      obtain ⟨rfl, rfl⟩ := hadd
      have hmem2 : ∀ e : State, e ∈ List.orderedInsert stateLE s heap ↔
          e = s ∨ e ∈ heap := fun e => List.mem_orderedInsert stateLE
      refine ⟨hsort.orderedInsert s _, ?_, ?_, ?_, setD entries s.getHash s, rfl,
        hndset, ?_, ?_⟩
      · have hperm2 : List.Perm ((List.orderedInsert stateLE s heap).map State.id)
            (s.id :: heap.map State.id) := by
          have hp := (List.perm_orderedInsert stateLE s heap).map State.id
          rw [List.map_cons] at hp
          exact hp
        exact hperm2.nodup_iff.mpr (List.nodup_cons.mpr ⟨hsidnotin, hnd⟩)
      · intro e he
        rcases (hmem2 e).mp he with rfl | he1
        · rw [hid]; exact Nat.lt_succ_self n
        · exact Nat.lt_succ_of_lt (hlt e he1)
      · intro e t het
        rcases orderedInsert_head het with rfl | ⟨t0, ht0⟩
        · exact hv
        · exact hhead e t0 ht0
      · intro kv hkv
        rw [happend] at hkv
        rcases List.mem_append.mp hkv with hkvmem | hkvlast
        · obtain ⟨hkvv, hkvh, hkvheap⟩ := hvals _ hkvmem
          exact ⟨hkvv, hkvh, (hmem2 kv.2).mpr (Or.inr hkvheap)⟩
        · have : kv = (s.getHash, s) := by simpa using hkvlast
          subst this
          exact ⟨hv, rfl, (hmem2 s).mpr (Or.inl rfl)⟩
      · intro e he hev
        rcases (hmem2 e).mp he with rfl | he1
        · rw [happend]
          exact List.mem_append.mpr (Or.inr (by simp))
        · rw [happend]
          exact List.mem_append.mpr (Or.inl (hvd e he1 hev))

lemma runHashedAddsAux_WF : ∀ (inputs : List (ℚ × Sig)) (hb : HashedBeam) (n : ℕ)
    {hb' : HashedBeam}, HBWF hb n → runHashedAddsAux hb n inputs = .ok hb' →
    ∃ m, HBWF hb' m
  | [], hb, n, hb', hwf, h => by
    rw [runHashedAddsAux] at h
    obtain rfl := Except.ok.inj h
    exact ⟨n, hwf⟩
  | (lp, sg) :: rest, hb, n, hb', hwf, h => by
    rw [runHashedAddsAux] at h
    cases hadd : hb.add (mkHState n lp sg) with
    | error e => rw [hadd] at h; exact absurd h (by simp)
    | ok pr =>
      obtain ⟨hb1, fl⟩ := pr
      rw [hadd] at h
      dsimp only at h
      have hwf1 : HBWF hb1 (n + 1) := by
        obtain ⟨k, heap, sdict⟩ := hb
        exact add_WF hwf rfl rfl hadd
      exact runHashedAddsAux_WF rest hb1 (n + 1) hwf1 h

lemma HBWF_pairwise_sig {hb : HashedBeam} {n : ℕ} (h : HBWF hb n) :
    hb.heap.Pairwise
      (fun a b => a.valid = true → b.valid = true → a.getHash ≠ b.getHash) := by
  obtain ⟨hsort, hnd, hlt, hhead, entries, hdict, hkeysnd, hvals, hvd⟩ := h
  have hpair : hb.heap.Pairwise (fun a b => a.id ≠ b.id) := List.pairwise_map.mp hnd
  refine List.Pairwise.imp_of_mem ?_ hpair
  intro a b ha hb' hidne hav hbv heq
  have h1 : lookupD entries a.getHash = some a := mem_lookupD hkeysnd (hvd a ha hav)
  have h2 : lookupD entries a.getHash = some b := by
    rw [heq]
    exact mem_lookupD hkeysnd (hvd b hb' hbv)
  rw [h1] at h2
  obtain rfl := Option.some.inj h2
  exact hidne rfl

lemma add_replace_step {hb : HashedBeam} {n : ℕ} (hwf : HBWF hb n) {s old : State}
    (hv : s.valid = true) (hfresh : ∀ e ∈ hb.heap, e.id ≠ s.id)
    (hlk : hb.dictLookup s.getHash = some old) (hlto : old.logProb < s.logProb) :
    ∃ hb', hb.add s = .ok (hb', true) ∧ hb'.dictSize = hb.dictSize ∧
      hb'.dictLookup s.getHash = some s ∧
      ∀ e ∈ hb'.heap, e.id = old.id → e.valid = false := by
  obtain ⟨k, heap, sdict⟩ := hb
  obtain ⟨hsort, hnd, hlt, hhead, entries, hdict, hkeysnd, hvals, hvd⟩ := hwf
  dsimp only at hdict hfresh
  subst hdict
  rw [HashedBeam.dictLookup] at hlk
  dsimp only at hlk
  have hmemold := lookupD_mem hlk
  obtain ⟨holdv, holdh, holdmem⟩ := hvals _ hmemold
  dsimp only at holdv holdh holdmem
  have hsin2 : s ∈ List.orderedInsert stateLE s (markInvalid heap old.id) :=
    (List.mem_orderedInsert stateLE).mpr (Or.inl rfl)
  obtain ⟨heap3, hfix⟩ := fixBeamMin_ok_of_valid_mem hsin2 hv
  refine ⟨⟨k, heap3, .map (setD entries s.getHash s)⟩, ?_, ?_, ?_, ?_⟩
  · unfold HashedBeam.add
    dsimp only
    rw [hlk]
    dsimp only
    rw [if_pos hlto, hfix]
  · rw [HashedBeam.dictSize, HashedBeam.dictSize]
    exact length_setD_mem s (List.mem_map_of_mem Prod.fst hmemold)
  · rw [HashedBeam.dictLookup]
    exact lookupD_setD entries s.getHash s
  · intro e he hide
    have he2 := (fixBeamMin_sublist hfix).mem he
    rcases (List.mem_orderedInsert stateLE).mp he2 with rfl | he1
    · exact absurd hide.symm (hfresh old holdmem)
    · exact invalid_of_mem_markInvalid he1 hide

/-- C4: after any sequence of `add` calls on a fresh `HashedBeam`, no two
valid heap members share a signature; and adding a state whose signature is
present and outranked always succeeds — regardless of capacity pressure —
replacing the map entry, invalidating the old holder, and leaving the
signature-map size (the beam's logical size) unchanged. -/
theorem C4_hashed_signature_dedup (k : ℕ) (inputs : List (ℚ × Sig)) (hb : HashedBeam)
    (hrun : runHashedAdds k inputs = .ok hb) :
    hb.heap.Pairwise
      (fun a b => a.valid = true → b.valid = true → a.getHash ≠ b.getHash) ∧
    ∀ s old : State, s.valid = true → (∀ e ∈ hb.heap, e.id ≠ s.id) →
      hb.dictLookup s.getHash = some old → old.logProb < s.logProb →
      ∃ hb', hb.add s = .ok (hb', true) ∧ hb'.dictSize = hb.dictSize ∧
        hb'.dictLookup s.getHash = some s ∧
        ∀ e ∈ hb'.heap, e.id = old.id → e.valid = false := by
  obtain ⟨m, hwf⟩ := runHashedAddsAux_WF inputs (freshHashedBeam k) 0 (HBWF_fresh k) hrun
  exact ⟨HBWF_pairwise_sig hwf, fun s old hv hfresh hlk hlto =>
    add_replace_step hwf hv hfresh hlk hlto⟩

/-- C5: after any sequence of `add` calls on a fresh `HashedBeam`, the heap
minimum (the head of the sorted heap) is always a valid member; heap entries
have pairwise-distinct identities, so each entry can be discarded at most
once; and `_fix_beam_min` discards exactly a prefix of invalid entries from
the minimum position. -/
theorem C5_heap_min_valid (k : ℕ) (inputs : List (ℚ × Sig)) (hb : HashedBeam)
    (hrun : runHashedAdds k inputs = .ok hb) :
    (∀ e t, hb.heap = e :: t → e.valid = true) ∧
    List.Sorted stateLE hb.heap ∧
    (hb.heap.map State.id).Nodup ∧
    ∀ l r : List State, fixBeamMin l = .ok r →
      ∃ p, l = p ++ r ∧ ∀ e ∈ p, e.valid = false := by
  obtain ⟨m, hwf⟩ := runHashedAddsAux_WF inputs (freshHashedBeam k) 0 (HBWF_fresh k) hrun
  obtain ⟨hsort, hnd, _, hhead, _⟩ := hwf
  exact ⟨hhead, hsort, hnd, fun l r h => fixBeamMin_dropped h⟩

/-- Concrete signatures and beams for the C4 and C5 witness runs. -/
def c4sig : Sig := [(some 0, some 0)]

def c4beam : HashedBeam :=
  ⟨1, [mkHState 0 1 c4sig], .map [(PyHashValue.tuple c4sig, mkHState 0 1 c4sig)]⟩

/-- Witness for C4: a concrete one-add run of capacity 1. -/
theorem C4_hashed_signature_dedup_witness :
    c4beam.heap.Pairwise
      (fun a b => a.valid = true → b.valid = true → a.getHash ≠ b.getHash) ∧
    ∀ s old : State, s.valid = true → (∀ e ∈ c4beam.heap, e.id ≠ s.id) →
      c4beam.dictLookup s.getHash = some old → old.logProb < s.logProb →
      ∃ hb', c4beam.add s = .ok (hb', true) ∧ hb'.dictSize = c4beam.dictSize ∧
        hb'.dictLookup s.getHash = some s ∧
        ∀ e ∈ hb'.heap, e.id = old.id → e.valid = false :=
  C4_hashed_signature_dedup 1 [(1, c4sig)] c4beam (by rfl)

def c5sigA : Sig := [(some 0, some 0)]

def c5sigB : Sig := [(some 0, some 1)]

def c5beam : HashedBeam :=
  ⟨2, [mkHState 1 2 c5sigB, mkHState 2 3 c5sigA],
    .map [(PyHashValue.tuple c5sigA, mkHState 2 3 c5sigA),
      (PyHashValue.tuple c5sigB, mkHState 1 2 c5sigB)]⟩

/-- Witness for C5: a concrete run of capacity 2 in which the third add
replaces a same-signature state, invalidates it and lazily discards it from
the heap-minimum position. -/
theorem C5_heap_min_valid_witness :
    (∀ e t, c5beam.heap = e :: t → e.valid = true) ∧
    List.Sorted stateLE c5beam.heap ∧
    (c5beam.heap.map State.id).Nodup ∧
    ∀ l r : List State, fixBeamMin l = .ok r →
      ∃ p, l = p ++ r ∧ ∀ e ∈ p, e.valid = false :=
  C5_heap_min_valid 2 [(1, c5sigA), (2, c5sigB), (3, c5sigA)] c5beam (by rfl)

def c10sig : Sig := [(some 1, some 1)]

/-- C10: after `HashedBeam.empty`, the signature map is the Python list `[]`,
so any subsequent `add` of a state carrying a hash tuple raises `TypeError`
(`list indices must be integers`) instead of inserting, whereas a freshly
constructed `HashedBeam` of the same positive capacity accepts the state. -/
theorem C10_cleared_beam_type_error (hb : HashedBeam) (s : State) (t : Sig)
    (hk : 0 < hb.beamSize) (hs : s.hashTuple = some t) :
    hb.emptied.add s = .error .typeError ∧
    ∀ k : ℕ, 0 < k → ∃ hb', (freshHashedBeam k).add s = .ok (hb', true) := by
  have hhash : s.getHash = PyHashValue.tuple t := by
    rw [State.getHash, hs]
  constructor
  · rw [HashedBeam.emptied, HashedBeam.add]
    dsimp only
    rw [if_neg (Nat.ne_of_lt hk), hhash]
  · intro k hk'
    refine ⟨⟨k, [s], .map [(s.getHash, s)]⟩, ?_⟩
    rw [freshHashedBeam, HashedBeam.add]
    dsimp only
    rw [lookupD]
    dsimp only
    rw [if_neg (by simpa using Nat.ne_of_lt hk')]
    rfl

/-- Witness for C10: a concrete cleared beam of capacity 3 and a concrete
hash-tuple-carrying state. -/
theorem C10_cleared_beam_type_error_witness :
    (HashedBeam.mk 3 [] (.map [])).emptied.add (mkHState 5 1 c10sig) =
      .error .typeError ∧
    ∀ k : ℕ, 0 < k →
      ∃ hb', (freshHashedBeam k).add (mkHState 5 1 c10sig) = .ok (hb', true) :=
  C10_cleared_beam_type_error (HashedBeam.mk 3 [] (.map [])) (mkHState 5 1 c10sig) c10sig
    (by decide) (by rfl)

/-- The final step of `beam_search` (line 834):
`return all_states[-1].get_top_state()`.  `all_states[-1]` on an empty list
would raise `IndexError`; `get_top_state` on an empty final beam raises
`ValueError` (`max()` of an empty sequence). -/
def beamSearchResult (allStates : List Beam) : Except PyError State :=
  match allStates.getLast? with
  | none => .error .indexError
  | some b => b.getTopState

/-- Counterexample for C8: with an empty final beam the search raises
`ValueError` (modelled as `.error .valueError`) from `max()` on an empty
sequence, rather than surfacing any distinguished non-exception "no solution"
value. -/
theorem C8_empty_final_beam_cex :
    beamSearchResult [Beam.mk 500 []] = .error .valueError := by
  rfl

/-- C8 (amended): whenever the final beam is empty at the end of the sweep,
`beam_search` raises `ValueError` (from `max()` on the empty beam); no
distinguished no-solution value is returned. -/
theorem C8_empty_final_beam_raises (allStates : List Beam) (b : Beam)
    (hlast : allStates.getLast? = some b) (hempty : b.heap = []) :
    beamSearchResult allStates = .error .valueError := by
  obtain ⟨k, hp⟩ := b
  dsimp only at hempty
  subst hempty
  unfold beamSearchResult
  rw [hlast]
  rfl

/-- Witness for C8 (amended): a one-beam list whose final beam is empty. -/
theorem C8_empty_final_beam_raises_witness :
    ([Beam.mk 2 []].getLast? = some (Beam.mk 2 [])) ∧
    (Beam.mk 2 []).heap = [] ∧
    beamSearchResult [Beam.mk 2 []] = .error .valueError :=
  ⟨rfl, rfl, C8_empty_final_beam_raises [Beam.mk 2 []] (Beam.mk 2 []) rfl rfl⟩

/-- The configuration parameters stored by `HarmonicInferenceModel.__init__`
(lines 435-522). -/
structure HarmonicInferenceModel where
  minChangeProb : ℚ
  maxNoChangeProb : ℚ
  maxChordLength : WithTop ℚ
  beamSize : ℤ
  maxBranchingFactor : ℤ
  targetBranchProb : ℚ
  hashLength : Option ℕ
deriving DecidableEq, Repr

/-- Model of `HarmonicInferenceModel.__init__` (lines 435-522): `none` models
an `AssertionError`.  The assertions on the `models` dict concern the external
scoring models (outside this data model); the only validation of the numeric
parameters is `assert min_change_prob <= max_no_change_prob` (line 510).
`beam_size`, `max_branching_factor` and `target_branch_prob` are stored
unchecked. -/
def mkHarmonicInferenceModel (minChangeProb maxNoChangeProb : ℚ)
    (maxChordLength : WithTop ℚ) (beamSize maxBranchingFactor : ℤ)
    (targetBranchProb : ℚ) (hashLength : Option ℕ) :
    Option HarmonicInferenceModel :=
  if minChangeProb ≤ maxNoChangeProb then
    some ⟨minChangeProb, maxNoChangeProb, maxChordLength, beamSize, maxBranchingFactor,
      targetBranchProb, hashLength⟩
  else none

/-- Counterexample for C9: construction succeeds with `beam_size = 0` (a
non-positive beam parameter is not rejected), and that error first surfaces
mid-search: the very first `Beam.add` on a size-0 beam raises `IndexError`. -/
theorem C9_construction_cex :
    (mkHarmonicInferenceModel (1/4) (3/4) ((8 : ℚ) : WithTop ℚ) 0 20 (19/20)
      (some 5)).isSome = true ∧
    (Beam.mk 0 []).add (mkHState 0 1 []) = .error .indexError := by
  constructor
  · rw [mkHarmonicInferenceModel, if_pos (by norm_num)]
    rfl
  · rfl

/-- C9 (amended): construction fails exactly on the threshold-ordering error
`min_change_prob > max_no_change_prob`; non-positive `beam_size` and
`max_branching_factor` are accepted at construction, and a zero `beam_size`
first surfaces during the search, when `Beam.add` hits `self.beam[0]` on an
empty heap (`IndexError`). -/
theorem C9_construction_checks (minCh maxNo : ℚ) (maxLen : WithTop ℚ)
    (beamSize maxBranch : ℤ) (target : ℚ) (hashLen : Option ℕ) :
    (mkHarmonicInferenceModel minCh maxNo maxLen beamSize maxBranch target hashLen
        = none ↔ maxNo < minCh) ∧
    ∀ s : State, (Beam.mk 0 []).add s = .error .indexError := by
  constructor
  · rw [mkHarmonicInferenceModel]
    split
    · next hle => simp [not_lt_of_le hle]
    · next hle => simp [lt_of_not_le hle]
  · intro s
    rfl

/-- `np.max(change_probs[first:i])` (line 627): maximum of a nonempty slice
(`0` for the empty slice, which the code never takes). -/
def sliceMax (cp : List ℚ) (a b : ℕ) : ℚ :=
  match (cp.drop a).take (b - a) with
  | [] => 0
  | x :: xs => xs.foldl max x

/-- The same-onset mask-and-collapse loop of `get_chord_ranges`
(lines 616-628): iterate `i` over consecutive note pairs; equal onsets mark
frame `i` invalid; at each onset change, if the just-finished group had more
than one member, write the group's maximum change probability back to its
first member and restart the group at `i`. -/
def collapseLoop (onsets : List ℚ) :
    ℕ → ℕ → ℕ → List ℚ → List Bool → List ℚ × List Bool
  | 0, _, _, cp, invalid => (cp, invalid)
  | fuel + 1, i, first, cp, invalid =>
    if i < onsets.length then
      if onsets.getD (i - 1) 0 = onsets.getD i 0 then
        collapseLoop onsets fuel (i + 1) first cp (invalid.set i true)
      else
        collapseLoop onsets fuel (i + 1) i
          (if first ≠ i - 1 then cp.set first (sliceMax cp first i) else cp) invalid
    else (cp, invalid)

/-- The mask-and-collapse preprocessing of `get_chord_ranges` starting from
`first = 0` and an all-`False` mask of length `len(change_probs)`.  The
structural fuel `onsets.length` covers every loop position `i ≥ 1`, so the
fuel never runs out before `i` reaches `onsets.length`. -/
def collapseProbs (onsets cp : List ℚ) : List ℚ × List Bool :=
  collapseLoop onsets onsets.length 1 0 cp (List.replicate cp.length false)

/-- The index one past the last loop position of the inner sweep of
`get_chord_ranges` (lines 650-658): the `zip` stops at the shorter of
`change_probs[start+1:]` and `duration_cache[start:]`, so indices run up to
`min (len change_probs) (len duration_cache + 1) - 1`. -/
def sweepBound (cp dur : List ℚ) : ℕ := min cp.length (dur.length + 1)

/-- The inner sweep of `get_chord_ranges` (lines 645-682) from a fixed
`start`: walk `index` forward, skipping invalid frames; accumulate the
running duration (the duration paired with `index` is
`duration_cache[index-1]`, the comment "Off-by-one" at line 655); stop
without emitting when the duration bound is exceeded; emit `(start, index)`
when `change_prob > min_change_prob`, pushing `index` as a new start when not
already queued; stop after a mandatory change
(`change_prob > max_no_change_prob`).  Returns the emitted ranges, the pushed
starts, the updated `in_starts` flags, and `reached_end`.  The running
no-change log-probability (lines 645, 670, 682) is not modelled: it never
affects control flow or which ranges are emitted. -/
def sweepAux (P : HarmonicInferenceModel) (cp : List ℚ) (invalid : List Bool)
    (dur : List ℚ) (start : ℕ) :
    ℕ → ℕ → ℚ → List Bool → List (ℕ × ℕ) → List ℕ →
      List (ℕ × ℕ) × List ℕ × List Bool × Bool
  | 0, _, _, inStarts, acc, pushes => (acc, pushes, inStarts, true)
  | fuel + 1, index, runningDur, inStarts, acc, pushes =>
    if index < sweepBound cp dur then
      if invalid.getD index false then
        sweepAux P cp invalid dur start fuel (index + 1) runningDur inStarts acc pushes
      else
        if P.maxChordLength < ((runningDur + dur.getD (index - 1) 0 : ℚ) : WithTop ℚ) then
          (acc, pushes, inStarts, false)
        else if P.minChangeProb < cp.getD index 0 then
          if inStarts.getD index false then
            if P.maxNoChangeProb < cp.getD index 0 then
              (acc ++ [(start, index)], pushes, inStarts, false)
            else
              sweepAux P cp invalid dur start fuel (index + 1)
                (runningDur + dur.getD (index - 1) 0)
                inStarts (acc ++ [(start, index)]) pushes
          else
            if P.maxNoChangeProb < cp.getD index 0 then
              (acc ++ [(start, index)], pushes ++ [index], inStarts.set index true, false)
            else
              sweepAux P cp invalid dur start fuel (index + 1)
                (runningDur + dur.getD (index - 1) 0)
                (inStarts.set index true) (acc ++ [(start, index)]) (pushes ++ [index])
        else
          sweepAux P cp invalid dur start fuel (index + 1)
            (runningDur + dur.getD (index - 1) 0)
            inStarts acc pushes
    else (acc, pushes, inStarts, true)

/-- The outer worklist loop of `get_chord_ranges` (lines 634-687): `starts`
is a min-priority queue (modelled as a sorted list, head = minimum) holding
each candidate start at most once (`in_starts`); each popped start is swept,
its new starts are pushed, and `(start, len(change_probs))` is appended when
the sweep reached the end.  `fuel` bounds the number of pops; every queued
start is a distinct index below `len(change_probs)`, so
`len(change_probs) + 1` pops are never exhausted. -/
def rangeLoop (P : HarmonicInferenceModel) (cp : List ℚ) (invalid : List Bool)
    (dur : List ℚ) : ℕ → List ℕ → List Bool → List (ℕ × ℕ) → List (ℕ × ℕ)
  | 0, _, _, acc => acc
  | _ + 1, [], _, acc => acc
  | fuel + 1, st :: restq, inStarts, acc =>
    match sweepAux P cp invalid dur st (sweepBound cp dur) (st + 1) 0 inStarts [] [] with
    | (emitted, pushes, inStarts2, reachedEnd) =>
      rangeLoop P cp invalid dur fuel
        (pushes.foldl (fun q j => List.orderedInsert (fun a b : ℕ => a ≤ b) j q) restq)
        inStarts2
        (acc ++ emitted ++ (if reachedEnd then [(st, cp.length)] else []))

/-- `get_chord_ranges` after the mask-and-collapse preprocessing
(lines 630-689), over an explicit validity mask: seed the queue with start 0
(`in_starts[0] = True`; on a zero-length `change_probs` the Python
`in_starts[0] = True` raises `IndexError`, so theorems below assume
`0 < cp.length`). -/
def getChordRangesCore (P : HarmonicInferenceModel) (cp : List ℚ) (invalid : List Bool)
    (dur : List ℚ) : List (ℕ × ℕ) :=
  rangeLoop P cp invalid dur (cp.length + 1) [0]
    ((List.replicate cp.length false).set 0 true) []

/-- `HarmonicInferenceModel.get_chord_ranges` (lines 587-689): mask-and-collapse
preprocessing from the piece's note onsets, then the worklist sweep. -/
def HarmonicInferenceModel.getChordRanges (P : HarmonicInferenceModel)
    (onsets cp dur : List ℚ) : List (ℕ × ℕ) :=
  getChordRangesCore P (collapseProbs onsets cp).1 (collapseProbs onsets cp).2 dur

/-- The literal "summed duration of the frames `s..e-1`" of claim C1. -/
def frameDurSum (dur : List ℚ) (s e : ℕ) : ℚ :=
  ∑ m in Finset.Ico s e, dur.getD m 0

/-- The duration actually accumulated by the sweep between `start` and loop
position `j` inclusive: `duration_cache[i-1]` for each non-invalid index
`i ∈ (start, j]`. -/
def durAccum (invalid : List Bool) (dur : List ℚ) (s j : ℕ) : ℚ :=
  ∑ i in Finset.Ico (s + 1) (j + 1),
    if invalid.getD i false then 0 else dur.getD (i - 1) 0

def c1P : HarmonicInferenceModel :=
  ⟨3/10, 7/10, ((2 : ℚ) : WithTop ℚ), 500, 20, 19/20, some 5⟩

/-- Counterexample for C1: with validity mask `[false, true, false]` and
durations `[10, 1, 0]`, the range `(0, 2)` is emitted (the sweep skips the
invalid index 1 and so never accumulates `duration_cache[0] = 10`), yet the
summed duration of frames `0..1` is `11 > 2 = max_segment_duration`. -/
theorem C1_range_duration_cex :
    ((0, 2) ∈ getChordRangesCore c1P [0, 1/2, 1/2] [false, true, false] [10, 1, 0]) ∧
    ¬ ((frameDurSum [10, 1, 0] 0 2 : WithTop ℚ) ≤ c1P.maxChordLength) := by
  norm_num [getChordRangesCore, rangeLoop, sweepAux, sweepBound, c1P, frameDurSum,
    List.replicate, Finset.sum_Ico_succ_top, WithTop.coe_le_coe,
    Finset.sum_range_succ, Finset.sum_range_zero]
  exact_mod_cast (by norm_num : (2 : ℚ) < 11)

set_option maxHeartbeats 2000000 in
/-- C2: the five-frame end-to-end scenario.  Distinct onsets, thresholds
`0.3`/`0.7`, change probabilities `[0, 0.9, 0.1, 0.95, 0]`, unbounded
maximum segment duration: the enumerator emits exactly
`[(0,1), (1,3), (3,5)]`. -/
theorem C2_end_to_end_ranges :
    (HarmonicInferenceModel.mk (3/10) (7/10) ⊤ 500 20 (19/20) (some 5)).getChordRanges
      [0, 1, 2, 3, 4] [0, 9/10, 1/10, 19/20, 0] [1, 1, 1, 1, 1] =
      [(0, 1), (1, 3), (3, 5)] := by
  norm_num [HarmonicInferenceModel.getChordRanges, getChordRangesCore, rangeLoop,
    sweepAux, sweepBound, collapseProbs, collapseLoop, sliceMax, List.replicate,
    List.orderedInsert]

/-- Counterexample for C7: onsets `[0, 1, 1]` have a maximal same-onset run
`{1, 2}` extending to the final frame; its interior member 2 is masked
invalid, but the run's maximum change probability (`9/10`, at index 2) is
never written back to the first member, which keeps `1/5`. -/
theorem C7_final_run_cex :
    ((collapseProbs [0, 1, 1] [(1 : ℚ)/2, 1/5, 9/10]).2 = [false, false, true]) ∧
    ¬ ((collapseProbs [0, 1, 1] [(1 : ℚ)/2, 1/5, 9/10]).1.getD 1 0 =
        sliceMax [(1 : ℚ)/2, 1/5, 9/10] 1 3) := by
  norm_num [collapseProbs, collapseLoop, sliceMax, List.replicate]

lemma getD_set_of_ne {α : Type} (l : List α) (d : α) {i j : ℕ} (hij : i ≠ j) (a : α) :
    (l.set i a).getD j d = l.getD j d := by
  by_cases hj : j < l.length
  · rw [List.getD_eq_getElem _ _ (by simpa using hj), List.getD_eq_getElem _ _ hj]
    exact List.getElem_set_ne hij _
  · rw [List.getD_eq_default _ _ (by simpa using le_of_not_lt hj),
      List.getD_eq_default _ _ (le_of_not_lt hj)]

lemma getD_set_self {α : Type} (l : List α) (d : α) {i : ℕ} (hi : i < l.length) (a : α) :
    (l.set i a).getD i d = a := by
  rw [List.getD_eq_getElem _ _ (by simpa using hi)]
  exact List.getElem_set_self _

lemma durAccum_empty (invalid : List Bool) (dur : List ℚ) {s j : ℕ} (hj : j ≤ s) :
    durAccum invalid dur s j = 0 := by
  unfold durAccum
  rw [Finset.Ico_eq_empty (by omega), Finset.sum_empty]

lemma durAccum_succ (invalid : List Bool) (dur : List ℚ) (s j : ℕ) (hsj : s ≤ j) :
    durAccum invalid dur s (j + 1) =
      durAccum invalid dur s j +
        (if invalid.getD (j + 1) false then 0 else dur.getD j 0) := by
  unfold durAccum
  rw [Finset.sum_Ico_succ_top (by omega)]
  simp

/-- Properties of every range `(start, index)` emitted by the inner sweep:
emitted at a splittable index strictly between `start` and the sweep bound,
with accumulated duration within the bound. -/
def EmitOK (P : HarmonicInferenceModel) (cp : List ℚ) (invalid : List Bool)
    (dur : List ℚ) (start : ℕ) (r : ℕ × ℕ) : Prop :=
  r.1 = start ∧ start < r.2 ∧ r.2 < sweepBound cp dur ∧
    invalid.getD r.2 false = false ∧
    ((durAccum invalid dur start r.2 : WithTop ℚ) ≤ P.maxChordLength)

/-- Properties of every start index pushed by the inner sweep. -/
def PushOK (cp : List ℚ) (invalid : List Bool) (dur : List ℚ) (start : ℕ)
    (j : ℕ) : Prop :=
  start < j ∧ j < sweepBound cp dur ∧ invalid.getD j false = false

lemma sweepAux_spec (P : HarmonicInferenceModel) (cp : List ℚ) (invalid : List Bool)
    (dur : List ℚ) (start : ℕ) :
    ∀ (fuel index : ℕ) (runningDur : ℚ) (inStarts : List Bool)
      (acc : List (ℕ × ℕ)) (pushes : List ℕ),
      sweepBound cp dur ≤ index + fuel →
      start < index →
      (index ≤ sweepBound cp dur ∨ (index = start + 1 ∧ runningDur = 0)) →
      runningDur = durAccum invalid dur start (index - 1) →
      ((runningDur : WithTop ℚ) ≤ P.maxChordLength) →
      (∀ r ∈ (sweepAux P cp invalid dur start fuel index runningDur inStarts acc pushes).1,
          r ∈ acc ∨ EmitOK P cp invalid dur start r) ∧
      (∀ j ∈ (sweepAux P cp invalid dur start fuel index runningDur inStarts acc pushes).2.1,
          j ∈ pushes ∨ PushOK cp invalid dur start j) ∧
      ((sweepAux P cp invalid dur start fuel index runningDur inStarts acc pushes).2.2.2 =
          true →
        ((durAccum invalid dur start (sweepBound cp dur - 1) : WithTop ℚ) ≤
          P.maxChordLength)) := by
  intro fuel
  induction fuel with
  | zero =>
    intro index runningDur inStarts acc pushes hfuel hsi hidx hinv hle
    rw [sweepAux]
    refine ⟨fun r hr => Or.inl hr, fun j hj => Or.inl hj, fun _ => ?_⟩
    rcases hidx with hidx | ⟨hidx, hrd0⟩
    · have hieq : index = sweepBound cp dur := by omega
      subst hieq
      rwa [hinv] at hle
    · have hb : sweepBound cp dur - 1 ≤ start := by omega
      rw [durAccum_empty invalid dur hb]
      rw [hrd0] at hle
      exact_mod_cast hle
  | succ fuel ih =>
    intro index runningDur inStarts acc pushes hfuel hsi hidx hinv hle
    rw [sweepAux]
    split
    · next hlt =>
      have hterm : ∀ b : Bool, invalid.getD index false = b →
          runningDur + (if b then (0 : ℚ) else dur.getD (index - 1) 0) =
            durAccum invalid dur start index := by
        intro b hb
        have h1 : index - 1 + 1 = index := by omega
        have h2 := durAccum_succ invalid dur start (index - 1) (by omega)
        rw [h1] at h2
        rw [h2, ← hinv, hb]
      split
      · next hinvalid =>
        have hrd : runningDur = durAccum invalid dur start index := by
          have := hterm true hinvalid
          simpa using this
        exact ih (index + 1) runningDur inStarts acc pushes (by omega) (by omega)
          (Or.inl (by omega)) (by simpa using hrd) hle
      · next hinvalid =>
        have hinv2 : invalid.getD index false = false := by
          simpa using hinvalid
        have hrd : runningDur + dur.getD (index - 1) 0 =
            durAccum invalid dur start index := by
          have := hterm false hinv2
          simpa using this
        split
        · next hover => exact ⟨fun r hr => Or.inl hr, fun j hj => Or.inl hj, by simp⟩
        · next hover =>
          have hle2 : ((runningDur + dur.getD (index - 1) 0 : ℚ) : WithTop ℚ) ≤
              P.maxChordLength := le_of_not_lt hover
          have hEmit : EmitOK P cp invalid dur start (start, index) :=
            ⟨rfl, hsi, hlt, hinv2, by rwa [← hrd]⟩
          split
          · next hminlt =>
            split
            · next hinstarts =>
              split
              · next hmax =>
                refine ⟨?_, fun j hj => Or.inl hj, by simp⟩
                intro r hr
                rcases List.mem_append.mp hr with hr | hr
                · exact Or.inl hr
                · exact Or.inr (by simpa using (List.mem_singleton.mp hr) ▸ hEmit)
              · next hmax =>
                obtain ⟨ih1, ih2, ih3⟩ := ih (index + 1) (runningDur + dur.getD (index - 1) 0)
                  inStarts (acc ++ [(start, index)]) pushes (by omega) (by omega)
                  (Or.inl (by omega)) (by simpa using hrd) hle2
                refine ⟨?_, ih2, ih3⟩
                intro r hr
                rcases ih1 r hr with hr2 | hr2
                · rcases List.mem_append.mp hr2 with hr3 | hr3
                  · exact Or.inl hr3
                  · exact Or.inr (by simpa using (List.mem_singleton.mp hr3) ▸ hEmit)
                · exact Or.inr hr2
            · next hinstarts =>
              have hPush : PushOK cp invalid dur start index := ⟨hsi, hlt, hinv2⟩
              split
              · next hmax =>
                refine ⟨?_, ?_, by simp⟩
                · intro r hr
                  rcases List.mem_append.mp hr with hr | hr
                  · exact Or.inl hr
                  · exact Or.inr (by simpa using (List.mem_singleton.mp hr) ▸ hEmit)
                · intro j hj
                  rcases List.mem_append.mp hj with hj | hj
                  · exact Or.inl hj
                  · exact Or.inr (by simpa using (List.mem_singleton.mp hj) ▸ hPush)
              · next hmax =>
                obtain ⟨ih1, ih2, ih3⟩ := ih (index + 1) (runningDur + dur.getD (index - 1) 0)
                  (inStarts.set index true) (acc ++ [(start, index)]) (pushes ++ [index])
                  (by omega) (by omega) (Or.inl (by omega)) (by simpa using hrd) hle2
                refine ⟨?_, ?_, ih3⟩
                · intro r hr
                  rcases ih1 r hr with hr2 | hr2
                  · rcases List.mem_append.mp hr2 with hr3 | hr3
                    · exact Or.inl hr3
                    · exact Or.inr (by simpa using (List.mem_singleton.mp hr3) ▸ hEmit)
                  · exact Or.inr hr2
                · intro j hj
                  rcases ih2 j hj with hj2 | hj2
                  · rcases List.mem_append.mp hj2 with hj3 | hj3
                    · exact Or.inl hj3
                    · exact Or.inr (by simpa using (List.mem_singleton.mp hj3) ▸ hPush)
                  · exact Or.inr hj2
          · next hminlt =>
            exact ih (index + 1) (runningDur + dur.getD (index - 1) 0) inStarts acc pushes
              (by omega) (by omega) (Or.inl (by omega)) (by simpa using hrd) hle2
    · next hlt =>
      refine ⟨fun r hr => Or.inl hr, fun j hj => Or.inl hj, fun _ => ?_⟩
      rcases hidx with hidx | ⟨hidx, hrd0⟩
      · have hieq : index = sweepBound cp dur := by omega
        subst hieq
        rwa [hinv] at hle
      · have hb : sweepBound cp dur - 1 ≤ start := by omega
        rw [durAccum_empty invalid dur hb]
        rw [hrd0] at hle
        exact_mod_cast hle

lemma mem_foldl_orderedInsert : ∀ (ps q : List ℕ) (x : ℕ),
    x ∈ ps.foldl (fun qq j => List.orderedInsert (fun a b : ℕ => a ≤ b) j qq) q →
    x ∈ q ∨ x ∈ ps
  | [], q, x, hx => Or.inl hx
  | j :: ps, q, x, hx => by
    rw [List.foldl_cons] at hx
    rcases mem_foldl_orderedInsert ps _ x hx with hx2 | hx2
    · rcases (List.mem_orderedInsert (fun a b : ℕ => a ≤ b)).mp hx2 with rfl | hx3
      · exact Or.inr (List.mem_cons_self _ _)
      · exact Or.inl hx3
    · exact Or.inr (List.mem_cons_of_mem _ hx2)

/-- The soundness predicate for ranges produced by `get_chord_ranges`: the
start is below the timeline length and is 0 or splittable; the end is past
the start and is the timeline length or a splittable index; and the duration
accumulated by the sweep is within the bound. -/
def RangeOK (P : HarmonicInferenceModel) (cp : List ℚ) (invalid : List Bool)
    (dur : List ℚ) (r : ℕ × ℕ) : Prop :=
  r.1 < cp.length ∧ (r.1 = 0 ∨ invalid.getD r.1 false = false) ∧ r.1 < r.2 ∧
    (r.2 = cp.length ∨ (r.2 < cp.length ∧ invalid.getD r.2 false = false)) ∧
    ((durAccum invalid dur r.1 (min r.2 (cp.length - 1)) : WithTop ℚ) ≤
      P.maxChordLength)

lemma rangeLoop_spec (P : HarmonicInferenceModel) (cp : List ℚ) (invalid : List Bool)
    (dur : List ℚ) (hn : 0 < cp.length) (hd : dur.length = cp.length)
    (hM : (0 : WithTop ℚ) ≤ P.maxChordLength) :
    ∀ (fuel : ℕ) (q : List ℕ) (inStarts : List Bool) (acc : List (ℕ × ℕ)),
      (∀ x ∈ q, x < cp.length ∧ (x = 0 ∨ invalid.getD x false = false)) →
      (∀ r ∈ acc, RangeOK P cp invalid dur r) →
      ∀ r ∈ rangeLoop P cp invalid dur fuel q inStarts acc,
        RangeOK P cp invalid dur r := by
  have hbound : sweepBound cp dur = cp.length := by
    unfold sweepBound
    omega
  intro fuel
  induction fuel with
  | zero =>
    intro q inStarts acc hq hacc r hr
    rw [rangeLoop] at hr
    exact hacc r hr
  | succ fuel ih =>
    intro q inStarts acc hq hacc r hr
    cases q with
    | nil =>
      rw [rangeLoop] at hr
      exact hacc r hr
    | cons st restq =>
      rw [rangeLoop] at hr
      obtain ⟨hstlt, hstb⟩ := hq st (List.mem_cons_self _ _)
      obtain ⟨h1, h2, h3⟩ := sweepAux_spec P cp invalid dur st (sweepBound cp dur)
        (st + 1) 0 inStarts [] [] (by omega) (by omega) (Or.inr ⟨rfl, rfl⟩)
        ((durAccum_empty invalid dur (le_refl st)).symm)
        (by rw [WithTop.coe_zero]; exact hM)
      rcases hsw : sweepAux P cp invalid dur st (sweepBound cp dur) (st + 1) 0
        inStarts [] [] with ⟨em, pu, is2, re⟩
      rw [hsw] at hr h1 h2 h3
      dsimp only at hr h1 h2 h3
      refine ih _ is2 _ ?_ ?_ r hr
      · intro x hx
        rcases mem_foldl_orderedInsert pu restq x hx with hx2 | hx2
        · exact hq x (List.mem_cons_of_mem _ hx2)
        · rcases h2 x hx2 with hx3 | hx3
          · simp at hx3
          · exact ⟨by rw [← hbound]; exact hx3.2.1, Or.inr hx3.2.2⟩
      · intro r2 hr2
        rcases List.mem_append.mp hr2 with hr3 | hr3
        · rcases List.mem_append.mp hr3 with hr4 | hr4
          · exact hacc r2 hr4
          · rcases h1 r2 hr4 with hr5 | hr5
            · simp at hr5
            · obtain ⟨he1, he2, he3, he4, he5⟩ := hr5
              rw [hbound] at he3
              refine ⟨he1 ▸ hstlt, he1 ▸ hstb, he1 ▸ he2, Or.inr ⟨he3, he4⟩, ?_⟩
              rw [he1, min_eq_left (by omega)]
              exact he1 ▸ he5
        · split at hr3
          · next hre =>
            obtain rfl := List.mem_singleton.mp hr3
            refine ⟨hstlt, hstb, hstlt, Or.inl rfl, ?_⟩
            have h4 := h3 hre
            rw [hbound] at h4
            rw [min_eq_right (by omega)]
            exact h4
          · simp at hr3

/-- C1 (amended): every range `(s, e)` emitted by the enumerator satisfies
`s < e`; `s` and `e` are each 0, the timeline length, or a splittable
(non-invalid) frame index; and the duration actually accumulated by the sweep
— the durations `duration_cache[m]` of the frames `m ∈ [s, min e (n-1))`
whose successor frame `m+1` is splittable — is at most the maximum segment
duration.  (The claim's literal "summed duration of the frames
`start..end-1`" fails: durations paired with invalid indices are skipped, and
the final frame's duration is never accumulated; see the counterexample.)
Hypotheses: a nonempty timeline (`in_starts[0] = True` raises `IndexError`
on an empty one), a duration cache of matching length, and a nonnegative
maximum segment duration. -/
theorem C1_range_soundness (P : HarmonicInferenceModel) (cp : List ℚ)
    (invalid : List Bool) (dur : List ℚ)
    (hn : 0 < cp.length) (hd : dur.length = cp.length)
    (hM : (0 : WithTop ℚ) ≤ P.maxChordLength)
    (s e : ℕ) (hmem : (s, e) ∈ getChordRangesCore P cp invalid dur) :
    s < e ∧ s < cp.length ∧ (s = 0 ∨ invalid.getD s false = false) ∧
    (e = cp.length ∨ (e < cp.length ∧ invalid.getD e false = false)) ∧
    ((durAccum invalid dur s (min e (cp.length - 1)) : WithTop ℚ) ≤
      P.maxChordLength) := by
  rw [getChordRangesCore] at hmem
  have h := rangeLoop_spec P cp invalid dur hn hd hM (cp.length + 1) [0]
    ((List.replicate cp.length false).set 0 true) []
    (by
      intro x hx
      obtain rfl := List.mem_singleton.mp hx
      exact ⟨hn, Or.inl rfl⟩)
    (by simp) (s, e) hmem
  obtain ⟨r1, r2, r3, r4, r5⟩ := h
  exact ⟨r3, r1, r2, r4, r5⟩

def c1Pw : HarmonicInferenceModel :=
  ⟨3/10, 7/10, ((5 : ℚ) : WithTop ℚ), 500, 20, 19/20, some 5⟩

/-- Witness for C1 (amended): the concrete two-frame run emits `(0, 1)` and
the soundness properties hold for it. -/
theorem C1_range_soundness_witness :
    0 < 1 ∧ 0 < 2 ∧ ((0 : ℕ) = 0 ∨ [false, false].getD 0 false = false) ∧
    ((1 : ℕ) = 2 ∨ (1 < 2 ∧ [false, false].getD 1 false = false)) ∧
    ((durAccum [false, false] [1, 1] 0 (min 1 (2 - 1)) : WithTop ℚ) ≤
      c1Pw.maxChordLength) := by
  have h := C1_range_soundness c1Pw [0, 1/2] [false, false] [1, 1]
    (by norm_num) (by norm_num)
    (by
      rw [show c1Pw.maxChordLength = ((5 : ℚ) : WithTop ℚ) from rfl, ← WithTop.coe_zero]
      exact WithTop.coe_le_coe.mpr (by norm_num)) 0 1
    (by norm_num [getChordRangesCore, rangeLoop, sweepAux, sweepBound, c1Pw,
      List.replicate])
  obtain ⟨h1, h2, h3, h4, h5⟩ := h
  exact ⟨h1, by norm_num, h3, h4, h5⟩

lemma sliceMax_singleton (cp : List ℚ) {a : ℕ} (ha : a < cp.length) :
    sliceMax cp a (a + 1) = cp.getD a 0 := by
  unfold sliceMax
  rw [List.drop_eq_getElem_cons ha]
  have h1 : a + 1 - a = 1 := by omega
  rw [h1, List.take_succ_cons, List.take_zero, List.getD_eq_getElem _ _ ha]
  rfl

lemma sliceMax_eq_of_agree {cp1 cp : List ℚ} (hlen : cp1.length = cp.length) {a b : ℕ}
    (hagree : ∀ j, a ≤ j → cp1.getD j 0 = cp.getD j 0) :
    sliceMax cp1 a b = sliceMax cp a b := by
  suffices h : (cp1.drop a).take (b - a) = (cp.drop a).take (b - a) by
    unfold sliceMax
    rw [h]
  apply List.ext_getElem
  · simp [hlen]
  · intro m h1 h2
    rw [List.getElem_take, List.getElem_drop, List.getElem_take, List.getElem_drop]
    have hm1 : a + m < cp1.length := by
      simp only [List.length_take, List.length_drop] at h1
      omega
    have hm2 : a + m < cp.length := by omega
    rw [← List.getD_eq_getElem cp1 0 hm1, ← List.getD_eq_getElem cp 0 hm2]
    exact hagree (a + m) (by omega)

lemma collapseLoop_after (onsets : List ℚ) (b : ℕ) :
    ∀ (fuel i first : ℕ) (cp : List ℚ) (invalid : List Bool),
      b ≤ first → first < i →
      ∀ j, j < b →
        (collapseLoop onsets fuel i first cp invalid).1.getD j 0 = cp.getD j 0 ∧
        (collapseLoop onsets fuel i first cp invalid).2.getD j false =
          invalid.getD j false := by
  intro fuel
  induction fuel with
  | zero =>
    intro i first cp invalid hbf hfi j hj
    rw [collapseLoop]
    exact ⟨rfl, rfl⟩
  | succ fuel ih =>
    intro i first cp invalid hbf hfi j hj
    rw [collapseLoop]
    split
    · next hilen =>
      split
      · next heq =>
        obtain ⟨ih1, ih2⟩ := ih (i + 1) first cp (invalid.set i true) hbf (by omega) j hj
        refine ⟨ih1, ?_⟩
        rw [ih2, getD_set_of_ne invalid false (by omega) true]
      · next heq =>
        obtain ⟨ih1, ih2⟩ := ih (i + 1) i
          (if first ≠ i - 1 then cp.set first (sliceMax cp first i) else cp) invalid
          (by omega) (by omega) j hj
        refine ⟨?_, ih2⟩
        rw [ih1]
        split
        · exact getD_set_of_ne cp 0 (by omega) _
        · rfl
    · exact ⟨rfl, rfl⟩

lemma collapseLoop_skipPhase (onsets : List ℚ) (a : ℕ)
    (haleft : onsets.getD (a - 1) 0 ≠ onsets.getD a 0) (halen : a < onsets.length) :
    ∀ (fuel i first : ℕ) (cp : List ℚ) (invalid : List Bool),
      i + fuel = onsets.length + 1 → 1 ≤ i → i ≤ a → first < i →
      ∃ fuel2 cp1 invalid1,
        collapseLoop onsets fuel i first cp invalid =
          collapseLoop onsets fuel2 (a + 1) a cp1 invalid1 ∧
        (a + 1) + fuel2 = onsets.length + 1 ∧
        cp1.length = cp.length ∧ invalid1.length = invalid.length ∧
        (∀ j, a ≤ j → cp1.getD j 0 = cp.getD j 0) ∧
        (∀ j, a ≤ j → invalid1.getD j false = invalid.getD j false) := by
  intro fuel
  induction fuel with
  | zero =>
    intro i first cp invalid hfuel h1i hia hfi
    omega
  | succ fuel ih =>
    intro i first cp invalid hfuel h1i hia hfi
    by_cases hieq : i = a
    · subst hieq
      rw [collapseLoop]
      rw [if_pos (by omega), if_neg haleft]
      refine ⟨fuel, _, invalid, rfl, by omega, ?_, rfl, ?_, fun j _ => rfl⟩
      · split
        · exact List.length_set _ _ _
        · rfl
      · intro j hj
        split
        · exact getD_set_of_ne cp 0 (by omega) _
        · rfl
    · have hia2 : i < a := by omega
      rw [collapseLoop]
      rw [if_pos (by omega)]
      split
      · next heq =>
        obtain ⟨fuel2, cp1, inv1, heq2, hf2, hl1, hl2, hg1, hg2⟩ :=
          ih (i + 1) first cp (invalid.set i true) (by omega) (by omega) (by omega)
            (by omega)
        refine ⟨fuel2, cp1, inv1, heq2, hf2, hl1, ?_, hg1, ?_⟩
        · rw [hl2, List.length_set]
        · intro j hj
          rw [hg2 j hj, getD_set_of_ne invalid false (by omega) true]
      · next heq =>
        obtain ⟨fuel2, cp1, inv1, heq2, hf2, hl1, hl2, hg1, hg2⟩ :=
          ih (i + 1) i (if first ≠ i - 1 then cp.set first (sliceMax cp first i) else cp)
            invalid (by omega) (by omega) (by omega) (by omega)
        refine ⟨fuel2, cp1, inv1, heq2, hf2, ?_, hl2, ?_, hg2⟩
        · rw [hl1]
          split
          · exact List.length_set _ _ _
          · rfl
        · intro j hj
          rw [hg1 j hj]
          split
          · exact getD_set_of_ne cp 0 (by omega) _
          · rfl

lemma collapseLoop_runPhase (onsets : List ℚ) (a b : ℕ)
    (hab : a < b) (hblen : b < onsets.length)
    (hrun : ∀ j, a ≤ j → j < b → onsets.getD j 0 = onsets.getD a 0)
    (hright : onsets.getD b 0 ≠ onsets.getD a 0) :
    ∀ (fuel i : ℕ) (cp : List ℚ) (invalid : List Bool),
      i + fuel = onsets.length + 1 → a < i → i ≤ b →
      onsets.length ≤ invalid.length →
      ∃ fuel2 invalid2,
        collapseLoop onsets fuel i a cp invalid =
          collapseLoop onsets fuel2 (b + 1) b
            (if a ≠ b - 1 then cp.set a (sliceMax cp a b) else cp) invalid2 ∧
        (b + 1) + fuel2 = onsets.length + 1 ∧
        invalid2.length = invalid.length ∧
        (∀ j, i ≤ j → j < b → invalid2.getD j false = true) ∧
        (∀ j, j < i → invalid2.getD j false = invalid.getD j false) ∧
        (∀ j, b ≤ j → invalid2.getD j false = invalid.getD j false) := by
  intro fuel
  induction fuel with
  | zero =>
    intro i cp invalid hfuel hai hib hinvlen
    omega
  | succ fuel ih =>
    intro i cp invalid hfuel hai hib hinvlen
    by_cases hieq : i = b
    · subst hieq
      rw [collapseLoop]
      rw [if_pos (by omega)]
      have hne : ¬ onsets.getD (i - 1) 0 = onsets.getD i 0 := by
        have h1 : onsets.getD (i - 1) 0 = onsets.getD a 0 := hrun (i - 1) (by omega) (by omega)
        rw [h1]
        exact fun h2 => hright h2.symm
      rw [if_neg hne]
      exact ⟨fuel, invalid, rfl, by omega, rfl, fun j h1 h2 => by omega,
        fun j _ => rfl, fun j _ => rfl⟩
    · have hib2 : i < b := by omega
      rw [collapseLoop]
      rw [if_pos (by omega)]
      have heq : onsets.getD (i - 1) 0 = onsets.getD i 0 := by
        rw [hrun (i - 1) (by omega) (by omega), hrun i (by omega) (by omega)]
      rw [if_pos heq]
      obtain ⟨fuel2, inv2, heq2, hf2, hl2, hint, hlo, hhi⟩ :=
        ih (i + 1) cp (invalid.set i true) (by omega) (by omega) (by omega)
          (by rw [List.length_set]; exact hinvlen)
      refine ⟨fuel2, inv2, heq2, hf2, by rw [hl2, List.length_set], ?_, ?_, ?_⟩
      · intro j h1 h2
        by_cases hji : j = i
        · subst hji
          rw [hlo j (by omega), getD_set_self invalid false (by omega) true]
        · exact hint j (by omega) h2
      · intro j hj
        rw [hlo j (by omega), getD_set_of_ne invalid false (by omega) true]
      · intro j hj
        rw [hhi j hj, getD_set_of_ne invalid false (by omega) true]

lemma sweepAux_boundary (P : HarmonicInferenceModel) (cp : List ℚ) (invalid : List Bool)
    (dur : List ℚ) (start : ℕ) :
    ∀ (fuel index : ℕ) (runningDur : ℚ) (inStarts : List Bool)
      (acc : List (ℕ × ℕ)) (pushes : List ℕ),
      start < index →
      (∀ r ∈ (sweepAux P cp invalid dur start fuel index runningDur inStarts acc pushes).1,
          r ∈ acc ∨ (r.1 = start ∧ invalid.getD r.2 false = false)) ∧
      (∀ j ∈ (sweepAux P cp invalid dur start fuel index runningDur inStarts acc pushes).2.1,
          j ∈ pushes ∨ invalid.getD j false = false) := by
  intro fuel
  induction fuel with
  | zero =>
    intro index runningDur inStarts acc pushes hsi
    rw [sweepAux]
    exact ⟨fun r hr => Or.inl hr, fun j hj => Or.inl hj⟩
  | succ fuel ih =>
    intro index runningDur inStarts acc pushes hsi
    rw [sweepAux]
    split
    · next hlt =>
      split
      · next hinvalid =>
        exact ih (index + 1) runningDur inStarts acc pushes (by omega)
      · next hinvalid =>
        have hinv2 : invalid.getD index false = false := by simpa using hinvalid
        split
        · exact ⟨fun r hr => Or.inl hr, fun j hj => Or.inl hj⟩
        · split
          · split
            · split
              · refine ⟨?_, fun j hj => Or.inl hj⟩
                intro r hr
                rcases List.mem_append.mp hr with hr | hr
                · exact Or.inl hr
                · obtain rfl := List.mem_singleton.mp hr
                  exact Or.inr ⟨rfl, hinv2⟩
              · obtain ⟨ih1, ih2⟩ := ih (index + 1) _ inStarts (acc ++ [(start, index)])
                  pushes (by omega)
                refine ⟨?_, ih2⟩
                intro r hr
                rcases ih1 r hr with hr2 | hr2
                · rcases List.mem_append.mp hr2 with hr3 | hr3
                  · exact Or.inl hr3
                  · obtain rfl := List.mem_singleton.mp hr3
                    exact Or.inr ⟨rfl, hinv2⟩
                · exact Or.inr hr2
            · split
              · refine ⟨?_, ?_⟩
                · intro r hr
                  rcases List.mem_append.mp hr with hr | hr
                  · exact Or.inl hr
                  · obtain rfl := List.mem_singleton.mp hr
                    exact Or.inr ⟨rfl, hinv2⟩
                · intro j hj
                  rcases List.mem_append.mp hj with hj | hj
                  · exact Or.inl hj
                  · obtain rfl := List.mem_singleton.mp hj
                    exact Or.inr hinv2
              · obtain ⟨ih1, ih2⟩ := ih (index + 1) _ (inStarts.set index true)
                  (acc ++ [(start, index)]) (pushes ++ [index]) (by omega)
                refine ⟨?_, ?_⟩
                · intro r hr
                  rcases ih1 r hr with hr2 | hr2
                  · rcases List.mem_append.mp hr2 with hr3 | hr3
                    · exact Or.inl hr3
                    · obtain rfl := List.mem_singleton.mp hr3
                      exact Or.inr ⟨rfl, hinv2⟩
                  · exact Or.inr hr2
                · intro j hj
                  rcases ih2 j hj with hj2 | hj2
                  · rcases List.mem_append.mp hj2 with hj3 | hj3
                    · exact Or.inl hj3
                    · obtain rfl := List.mem_singleton.mp hj3
                      exact Or.inr hinv2
                  · exact Or.inr hj2
          · exact ih (index + 1) _ inStarts acc pushes (by omega)
    · exact ⟨fun r hr => Or.inl hr, fun j hj => Or.inl hj⟩

lemma rangeLoop_boundary (P : HarmonicInferenceModel) (cp : List ℚ)
    (invalid : List Bool) (dur : List ℚ) :
    ∀ (fuel : ℕ) (q : List ℕ) (inStarts : List Bool) (acc : List (ℕ × ℕ)),
      (∀ x ∈ q, x = 0 ∨ invalid.getD x false = false) →
      (∀ r ∈ acc, (r.1 = 0 ∨ invalid.getD r.1 false = false) ∧
        (r.2 = cp.length ∨ invalid.getD r.2 false = false)) →
      ∀ r ∈ rangeLoop P cp invalid dur fuel q inStarts acc,
        (r.1 = 0 ∨ invalid.getD r.1 false = false) ∧
        (r.2 = cp.length ∨ invalid.getD r.2 false = false) := by
  intro fuel
  induction fuel with
  | zero =>
    intro q inStarts acc hq hacc r hr
    rw [rangeLoop] at hr
    exact hacc r hr
  | succ fuel ih =>
    intro q inStarts acc hq hacc r hr
    cases q with
    | nil =>
      rw [rangeLoop] at hr
      exact hacc r hr
    | cons st restq =>
      rw [rangeLoop] at hr
      have hstb := hq st (List.mem_cons_self _ _)
      obtain ⟨h1, h2⟩ := sweepAux_boundary P cp invalid dur st (sweepBound cp dur)
        (st + 1) 0 inStarts [] [] (by omega)
      rcases hsw : sweepAux P cp invalid dur st (sweepBound cp dur) (st + 1) 0
        inStarts [] [] with ⟨em, pu, is2, re⟩
      rw [hsw] at hr h1 h2
      dsimp only at hr h1 h2
      refine ih _ is2 _ ?_ ?_ r hr
      · intro x hx
        rcases mem_foldl_orderedInsert pu restq x hx with hx2 | hx2
        · exact hq x (List.mem_cons_of_mem _ hx2)
        · rcases h2 x hx2 with hx3 | hx3
          · simp at hx3
          · exact Or.inr hx3
      · intro r2 hr2
        rcases List.mem_append.mp hr2 with hr3 | hr3
        · rcases List.mem_append.mp hr3 with hr4 | hr4
          · exact hacc r2 hr4
          · rcases h1 r2 hr4 with hr5 | hr5
            · simp at hr5
            · exact ⟨hr5.1 ▸ hstb, Or.inr hr5.2⟩
        · split at hr3
          · obtain rfl := List.mem_singleton.mp hr3
            exact ⟨hstb, Or.inl rfl⟩
          · simp at hr3

lemma getD_replicate_false (n j : ℕ) : (List.replicate n false).getD j false = false := by
  by_cases h : j < n
  · rw [List.getD_eq_getElem _ _ (by simpa using h)]
    exact List.getElem_replicate _ _
  · rw [List.getD_eq_default _ _ (by simpa using le_of_not_lt h)]

lemma collapseLoop_lengths (onsets : List ℚ) :
    ∀ (fuel i first : ℕ) (cp : List ℚ) (invalid : List Bool),
      (collapseLoop onsets fuel i first cp invalid).1.length = cp.length ∧
      (collapseLoop onsets fuel i first cp invalid).2.length = invalid.length := by
  intro fuel
  induction fuel with
  | zero =>
    intro i first cp invalid
    rw [collapseLoop]
    exact ⟨rfl, rfl⟩
  | succ fuel ih =>
    intro i first cp invalid
    rw [collapseLoop]
    split
    · split
      · obtain ⟨h1, h2⟩ := ih (i + 1) first cp (invalid.set i true)
        exact ⟨h1, by rw [h2, List.length_set]⟩
      · obtain ⟨h1, h2⟩ := ih (i + 1) i
          (if first ≠ i - 1 then cp.set first (sliceMax cp first i) else cp) invalid
        refine ⟨?_, h2⟩
        rw [h1]
        split
        · exact List.length_set _ _ _
        · rfl
    · exact ⟨rfl, rfl⟩

/-- C7 (amended): a maximal same-onset run `[a, b)` that is followed by a
frame `b` with a different onset is collapsed: the run's maximum change
probability is written back to its first member `a`, the interior members are
masked invalid (so they can never be an emitted range boundary), and the
first member stays splittable.  (A run extending to the final frame is *not*
collapsed — the write-back at lines 626-627 only fires when a later,
different onset is seen; see the counterexample.) -/
theorem C7_same_onset_collapse (onsets cp : List ℚ) (a b : ℕ)
    (hlen : onsets.length = cp.length)
    (hab : a < b) (hblen : b < onsets.length)
    (hrun : ∀ j, a ≤ j → j < b → onsets.getD j 0 = onsets.getD a 0)
    (hleft : a = 0 ∨ onsets.getD (a - 1) 0 ≠ onsets.getD a 0)
    (hright : onsets.getD b 0 ≠ onsets.getD a 0) :
    (collapseProbs onsets cp).1.getD a 0 = sliceMax cp a b ∧
    (∀ j, a < j → j < b → (collapseProbs onsets cp).2.getD j false = true) ∧
    (collapseProbs onsets cp).2.getD a false = false ∧
    (∀ j, a < j → j < b → ∀ (P : HarmonicInferenceModel) (dur : List ℚ) (se : ℕ × ℕ),
      se ∈ getChordRangesCore P (collapseProbs onsets cp).1 (collapseProbs onsets cp).2
        dur →
      se.1 ≠ j ∧ se.2 ≠ j) := by
  have hphase1 : ∃ fuel1 cp1 inv1,
      collapseLoop onsets onsets.length 1 0 cp (List.replicate cp.length false) =
        collapseLoop onsets fuel1 (a + 1) a cp1 inv1 ∧
      (a + 1) + fuel1 = onsets.length + 1 ∧
      cp1.length = cp.length ∧
      inv1.length = (List.replicate cp.length false).length ∧
      (∀ j, a ≤ j → cp1.getD j 0 = cp.getD j 0) ∧
      (∀ j, a ≤ j → inv1.getD j false = (List.replicate cp.length false).getD j false) := by
    rcases hleft with rfl | haleft
    · exact ⟨onsets.length, cp, List.replicate cp.length false, rfl, by omega, rfl, rfl,
        fun j _ => rfl, fun j _ => rfl⟩
    · have ha1 : 1 ≤ a := by
        by_contra hcon
        have ha0 : a = 0 := by omega
        subst ha0
        exact haleft rfl
      exact collapseLoop_skipPhase onsets a haleft (by omega) onsets.length 1 0 cp
        (List.replicate cp.length false) (by omega) (by omega) ha1 (by omega)
  obtain ⟨fuel1, cp1, inv1, hph1, hf1, hcl1, hil1, hg1, hg2⟩ := hphase1
  obtain ⟨fuel2, inv2, hph2, hf2, hil2, hint, hlo, hhi⟩ :=
    collapseLoop_runPhase onsets a b hab hblen hrun hright fuel1 (a + 1) cp1 inv1
      (by omega) (by omega) (by omega)
      (by rw [hil1, List.length_replicate]; omega)
  have hfinal : collapseProbs onsets cp =
      collapseLoop onsets fuel2 (b + 1) b
        (if a ≠ b - 1 then cp1.set a (sliceMax cp1 a b) else cp1) inv2 := by
    rw [collapseProbs, hph1, hph2]
  have hafter := collapseLoop_after onsets b fuel2 (b + 1) b
    (if a ≠ b - 1 then cp1.set a (sliceMax cp1 a b) else cp1) inv2 (le_refl b)
    (by omega)
  have halen : a < cp.length := by omega
  have hc1 : (collapseProbs onsets cp).1.getD a 0 = sliceMax cp a b := by
    rw [hfinal, (hafter a (by omega)).1]
    by_cases hba : a = b - 1
    · have hb : b = a + 1 := by omega
      rw [if_neg (by omega), hg1 a (le_refl a), hb, sliceMax_singleton cp halen]
    · rw [if_pos hba, getD_set_self cp1 0 (by omega) _]
      exact sliceMax_eq_of_agree hcl1 hg1
  have hc2 : ∀ j, a < j → j < b → (collapseProbs onsets cp).2.getD j false = true := by
    intro j h1 h2
    rw [hfinal, (hafter j h2).2]
    exact hint j (by omega) h2
  have hc3 : (collapseProbs onsets cp).2.getD a false = false := by
    rw [hfinal, (hafter a (by omega)).2, hlo a (by omega), hg2 a (le_refl a),
      getD_replicate_false]
  refine ⟨hc1, hc2, hc3, ?_⟩
  intro j h1 h2 P dur se hse
  have hflen : (collapseProbs onsets cp).1.length = cp.length := by
    rw [hfinal]
    have := (collapseLoop_lengths onsets fuel2 (b + 1) b
      (if a ≠ b - 1 then cp1.set a (sliceMax cp1 a b) else cp1) inv2).1
    rw [this]
    split
    · rw [List.length_set, hcl1]
    · exact hcl1
  rw [getChordRangesCore] at hse
  have hbd := rangeLoop_boundary P (collapseProbs onsets cp).1
    (collapseProbs onsets cp).2 dur ((collapseProbs onsets cp).1.length + 1) [0]
    ((List.replicate (collapseProbs onsets cp).1.length false).set 0 true) []
    (by
      intro x hx
      obtain rfl := List.mem_singleton.mp hx
      exact Or.inl rfl)
    (by simp) se hse
  obtain ⟨hb1, hb2⟩ := hbd
  have hjinv := hc2 j h1 h2
  constructor
  · rcases hb1 with hb1 | hb1
    · omega
    · intro hj
      rw [hj, hjinv] at hb1
      exact absurd hb1 (by simp)
  · rcases hb2 with hb2 | hb2
    · intro hj
      rw [hflen] at hb2
      omega
    · intro hj
      rw [hj, hjinv] at hb2
      exact absurd hb2 (by simp)

def c7onsets : List ℚ := [0, 1, 1, 2]

def c7cp : List ℚ := [1/2, 1/5, 9/10, 1/3]

/-- Witness for C7 (amended): the run `{1, 2}` of `[0, 1, 1, 2]` is followed
by a different onset, so its maximum is collapsed into index 1 and index 2 is
masked. -/
theorem C7_same_onset_collapse_witness :
    (collapseProbs c7onsets c7cp).1.getD 1 0 = sliceMax c7cp 1 3 ∧
    (∀ j, 1 < j → j < 3 → (collapseProbs c7onsets c7cp).2.getD j false = true) ∧
    (collapseProbs c7onsets c7cp).2.getD 1 false = false ∧
    (∀ j, 1 < j → j < 3 → ∀ (P : HarmonicInferenceModel) (dur : List ℚ) (se : ℕ × ℕ),
      se ∈ getChordRangesCore P (collapseProbs c7onsets c7cp).1
        (collapseProbs c7onsets c7cp).2 dur →
      se.1 ≠ j ∧ se.2 ≠ j) :=
  C7_same_onset_collapse c7onsets c7cp 1 3 (by rfl) (by omega) (by norm_num [c7onsets])
    (by
      intro j hj1 hj2
      have : j = 1 ∨ j = 2 := by omega
      rcases this with rfl | rfl
      · rfl
      · rfl)
    (Or.inr (by norm_num [c7onsets]))
    (by norm_num [c7onsets])

/-! ### C6: the branching cutoff of `beam_search` (lines 756-768 and 810-818) -/

/-- Descending comparison on rationals: the order `np.argsort(-priors)` sorts
the prior values into. -/
def qGE (a b : ℚ) : Prop := b ≤ a

instance : DecidableRel qGE := fun a b => inferInstanceAs (Decidable (b ≤ a))

instance : IsTotal ℚ qGE := ⟨fun a b => (le_total b a).imp id id⟩

instance : IsTrans ℚ qGE := ⟨fun _ _ _ h1 h2 => le_trans h2 h1⟩

instance : IsAntisymm ℚ qGE := ⟨fun _ _ h1 h2 => le_antisymm h2 h1⟩

/-- Index comparison: index `i` before index `j` when `l[i]` is the larger
prior (out-of-range indices read as 0, never hit on real inputs). -/
def idxGE (l : List ℚ) (i j : ℕ) : Prop := l.getD j 0 ≤ l.getD i 0

instance (l : List ℚ) : DecidableRel (idxGE l) :=
  fun i j => inferInstanceAs (Decidable (l.getD j 0 ≤ l.getD i 0))

instance (l : List ℚ) : IsTotal ℕ (idxGE l) :=
  ⟨fun i j => (le_total (l.getD j 0) (l.getD i 0)).imp id id⟩

instance (l : List ℚ) : IsTrans ℕ (idxGE l) :=
  ⟨fun _ _ _ h1 h2 => le_trans h2 h1⟩

/-- `np.argsort(-priors)` (line 758): a permutation of the index range, sorted
by descending prior value. -/
def argsortDesc (l : List ℚ) : List ℕ := (List.range l.length).insertionSort (idxGE l)

/-- `np.take_along_axis(priors, priors_argsort, -1)` (line 762): the prior
values rearranged into descending order via the argsort. -/
def sortedByArgsort (l : List ℚ) : List ℚ := (argsortDesc l).map (fun i => l.getD i 0)

/-- The priors sorted descending directly: the spec's wording of the same
vector. -/
def sortedDescProbs (l : List ℚ) : List ℚ := l.insertionSort qGE

/-- `np.cumsum` (line 761): partial sums, entry `j` holding `l[0] + ... + l[j]`. -/
def cumsum (l : List ℚ) : List ℚ := (l.scanl (· + ·) 0).tail

/-- Least `j ≥ k` satisfying `p`, searched within `fuel` steps: the scan
`np.argmax` performs over a boolean vector. -/
def leastFrom (p : ℕ → Bool) : ℕ → ℕ → Option ℕ
  | 0, _ => none
  | fuel + 1, k => if p k then some k else leastFrom p fuel (k + 1)

/-- `np.argmax` of a boolean vector (line 760): the index of the first `True`,
or 0 when every entry is `False`. -/
def npArgmaxBool (bs : List Bool) : ℕ :=
  (leastFrom (fun j => bs.getD j false) bs.length 0).getD 0

/-- `np.clip x lo hi` (lines 759, 766-767). -/
def npClip (x lo hi : ℕ) : ℕ := min (max x lo) hi

/-- The cutoff the code computes (lines 759-768): argmax of
`cumsum(priors sorted via argsort) >= target_branch_prob`, plus one, clipped
to `[1, max_branching_factor]`. -/
def codeMaxIndex (priors : List ℚ) (target : ℚ) (maxB : ℕ) : ℕ :=
  npClip
    (npArgmaxBool ((cumsum (sortedByArgsort priors)).map (fun c => decide (target ≤ c))) + 1)
    1 maxB

/-- The sum of the `m` largest priors. -/
def topSum (priors : List ℚ) (m : ℕ) : ℚ := ((sortedDescProbs priors).take m).sum

/-- The spec's wording of the cutoff: the size of the smallest descending
prefix of the priors whose cumulative probability reaches `target`, clamped to
at least 1 and at most `maxB`. -/
def specCutoff (priors : List ℚ) (target : ℚ) (maxB : ℕ) : ℕ :=
  npClip
    ((leastFrom (fun m => decide (target ≤ topSum priors m)) (priors.length + 1) 0).getD
      priors.length)
    1 maxB

/-- The widening at lines 810-812: if the cutoff is exactly 1 and the single
top label is the state's current chord, branch over the top two labels
instead. -/
def effMaxIndex (argsort : List ℕ) (maxIdx : ℕ) (chord : Option ℕ) : ℕ :=
  if maxIdx = 1 ∧ chord = some (argsort.headD 0) then 2 else maxIdx

/-- The chord ids actually branched over (lines 814-818): the argsort prefix
of the (possibly widened) cutoff length, with self-transitions skipped. -/
def branchCands (argsort : List ℕ) (maxIdx : ℕ) (chord : Option ℕ) : List ℕ :=
  (argsort.take (effMaxIndex argsort maxIdx chord)).filter (fun c => decide (chord ≠ some c))

lemma map_getD_range (l : List ℚ) :
    (List.range l.length).map (fun i => l.getD i 0) = l := by
  apply List.ext_getElem
  · simp
  · intro m h1 h2
    rw [List.getElem_map, List.getElem_range]
    exact l.getD_eq_getElem 0 h2

lemma argsortDesc_perm (l : List ℚ) : (argsortDesc l).Perm (List.range l.length) :=
  List.perm_insertionSort _ _

lemma argsortDesc_length (l : List ℚ) : (argsortDesc l).length = l.length := by
  rw [(argsortDesc_perm l).length_eq, List.length_range]

lemma argsortDesc_nodup (l : List ℚ) : (argsortDesc l).Nodup :=
  (argsortDesc_perm l).nodup_iff.mpr (List.nodup_range _)

lemma sortedByArgsort_perm (l : List ℚ) : (sortedByArgsort l).Perm l := by
  have h := (argsortDesc_perm l).map (fun i => l.getD i 0)
  rw [map_getD_range] at h
  exact h

lemma sortedByArgsort_sorted (l : List ℚ) : (sortedByArgsort l).Sorted qGE := by
  have h : (argsortDesc l).Sorted (idxGE l) := List.sorted_insertionSort _ _
  exact List.pairwise_map.mpr (h.imp (fun hij => hij))

lemma sortedDescProbs_sorted (l : List ℚ) : (sortedDescProbs l).Sorted qGE :=
  List.sorted_insertionSort _ _

lemma sortedDescProbs_perm (l : List ℚ) : (sortedDescProbs l).Perm l :=
  List.perm_insertionSort _ _

/-- Rearranging via the argsort gives exactly the descending-sorted priors. -/
lemma sortedByArgsort_eq (l : List ℚ) : sortedByArgsort l = sortedDescProbs l :=
  List.eq_of_perm_of_sorted ((sortedByArgsort_perm l).trans (sortedDescProbs_perm l).symm)
    (sortedByArgsort_sorted l) (sortedDescProbs_sorted l)

lemma scanl_add_getD (l : List ℚ) : ∀ (b : ℚ) (j : ℕ), j ≤ l.length →
    (l.scanl (· + ·) b).getD j 0 = b + (l.take j).sum := by
  induction l with
  | nil =>
    intro b j hj
    have hj0 : j = 0 := Nat.le_zero.mp hj
    subst hj0
    rw [List.scanl_nil, List.getD_cons_zero, List.take_nil, List.sum_nil, add_zero]
  | cons a t ih =>
    intro b j hj
    cases j with
    | zero =>
      rw [List.scanl_cons, List.singleton_append, List.getD_cons_zero, List.take_zero,
        List.sum_nil, add_zero]
    | succ j =>
      rw [List.scanl_cons, List.singleton_append, List.getD_cons_succ,
        ih (b + a) j (by simpa using hj), List.take_succ_cons, List.sum_cons]
      ring

lemma cumsum_getD (l : List ℚ) (j : ℕ) (hj : j < l.length) :
    (cumsum l).getD j 0 = (l.take (j + 1)).sum := by
  cases l with
  | nil => simp at hj
  | cons a t =>
    have hjt : j ≤ t.length := by
      simp only [List.length_cons] at hj
      omega
    rw [cumsum, List.scanl_cons, List.singleton_append, List.tail_cons,
      scanl_add_getD t (0 + a) j hjt,
      List.take_succ_cons, List.sum_cons]
    ring

lemma cumsum_length (l : List ℚ) : (cumsum l).length = l.length := by
  rw [cumsum, List.length_tail, List.length_scanl]
  omega

lemma getD_map_decide (cs : List ℚ) (target : ℚ) (j : ℕ) (hj : j < cs.length) :
    (cs.map (fun c => decide (target ≤ c))).getD j false = decide (target ≤ cs.getD j 0) := by
  rw [List.getD_eq_getElem _ _ (by rw [List.length_map]; exact hj), List.getElem_map,
    List.getD_eq_getElem _ _ hj]

lemma leastFrom_some_spec (p : ℕ → Bool) :
    ∀ (fuel k j : ℕ), leastFrom p fuel k = some j →
      p j = true ∧ k ≤ j ∧ ∀ i, k ≤ i → i < j → p i = false := by
  intro fuel
  induction fuel with
  | zero => intro k j h; exact absurd h (by simp [leastFrom])
  | succ fuel ih =>
    intro k j h
    rw [leastFrom] at h
    by_cases hk : p k
    · rw [if_pos hk] at h
      injection h with h
      subst h
      exact ⟨hk, le_refl _, fun i h1 h2 => absurd h1 (by omega)⟩
    · rw [if_neg hk] at h
      obtain ⟨hpj, hkj, hmin⟩ := ih (k + 1) j h
      refine ⟨hpj, by omega, fun i h1 h2 => ?_⟩
      rcases Nat.eq_or_lt_of_le h1 with rfl | h1'
      · exact Bool.eq_false_iff.mpr hk
      · exact hmin i (by omega) h2

lemma leastFrom_reaches (p : ℕ → Bool) :
    ∀ (fuel k j : ℕ), k ≤ j → j < k + fuel → p j = true →
      ∃ j', leastFrom p fuel k = some j' ∧ j' ≤ j := by
  intro fuel
  induction fuel with
  | zero => intro k j h1 h2 _; omega
  | succ fuel ih =>
    intro k j h1 h2 h3
    rw [leastFrom]
    by_cases hk : p k
    · rw [if_pos hk]
      exact ⟨k, rfl, h1⟩
    · rw [if_neg hk]
      have hkj : k ≠ j := fun h => hk (by rw [h]; exact h3)
      obtain ⟨j', hj', hle⟩ := ih (k + 1) j (by omega) (by omega) h3
      exact ⟨j', hj', hle⟩

/-- The code's clipped argmax-of-cumsum cutoff equals the spec's smallest
covering descending prefix, as long as the target is positive and attainable. -/
lemma cutoff_eq (priors : List ℚ) (target : ℚ) (maxB : ℕ)
    (hlen : 1 ≤ priors.length) (ht : 0 < target) (hsum : target ≤ priors.sum) :
    codeMaxIndex priors target maxB = specCutoff priors target maxB := by
  have hSlen : (sortedDescProbs priors).length = priors.length :=
    (sortedDescProbs_perm priors).length_eq
  have hSsum : (sortedDescProbs priors).sum = priors.sum :=
    (sortedDescProbs_perm priors).sum_eq
  have htopn : topSum priors priors.length = priors.sum := by
    simp only [topSum]
    rw [← hSlen, List.take_length, hSsum]
  have hbslen :
      ((cumsum (sortedDescProbs priors)).map (fun c => decide (target ≤ c))).length
        = priors.length := by
    rw [List.length_map, cumsum_length, hSlen]
  have hpb : ∀ j, j < priors.length →
      ((cumsum (sortedDescProbs priors)).map (fun c => decide (target ≤ c))).getD j false
        = decide (target ≤ topSum priors (j + 1)) := by
    intro j hj
    have hj2 : j < (cumsum (sortedDescProbs priors)).length := by
      rw [cumsum_length, hSlen]; exact hj
    rw [getD_map_decide _ _ _ hj2, cumsum_getD _ _ (by rw [hSlen]; exact hj)]
    simp [topSum]
  have hlast :
      ((cumsum (sortedDescProbs priors)).map (fun c => decide (target ≤ c))).getD
        (priors.length - 1) false = true := by
    rw [hpb _ (by omega)]
    have hn1 : priors.length - 1 + 1 = priors.length := by omega
    rw [hn1, htopn]
    exact decide_eq_true hsum
  obtain ⟨j0, hj0, hj0le⟩ :=
    leastFrom_reaches
      (fun j => ((cumsum (sortedDescProbs priors)).map
        (fun c => decide (target ≤ c))).getD j false)
      ((cumsum (sortedDescProbs priors)).map (fun c => decide (target ≤ c))).length
      0 (priors.length - 1) (by omega) (by rw [hbslen]; omega) hlast
  obtain ⟨hj0p, -, hj0min⟩ := leastFrom_some_spec _ _ _ _ hj0
  have hj0lt : j0 < priors.length := by omega
  have hpsn : decide (target ≤ topSum priors priors.length) = true := by
    rw [htopn]
    exact decide_eq_true hsum
  obtain ⟨m0, hm0, hm0le⟩ :=
    leastFrom_reaches (fun m => decide (target ≤ topSum priors m))
      (priors.length + 1) 0 priors.length (by omega) (by omega) hpsn
  obtain ⟨hm0p, -, hm0min⟩ := leastFrom_some_spec _ _ _ _ hm0
  have hcode_true : target ≤ topSum priors (j0 + 1) :=
    of_decide_eq_true (by rw [← hpb j0 hj0lt]; exact hj0p)
  have hspec_true : target ≤ topSum priors m0 := of_decide_eq_true hm0p
  have hcode_min : ∀ i, i < j0 → ¬ target ≤ topSum priors (i + 1) := by
    intro i hi hcon
    have hfalse : decide (target ≤ topSum priors (i + 1)) = false := by
      rw [← hpb i (by omega)]
      exact hj0min i (Nat.zero_le i) hi
    exact absurd hcon (of_decide_eq_false hfalse)
  have hspec_min : ∀ i, i < m0 → ¬ target ≤ topSum priors i := by
    intro i hi hcon
    exact absurd hcon (of_decide_eq_false (hm0min i (Nat.zero_le i) hi))
  have hm0pos : 1 ≤ m0 := by
    by_contra h
    have hm0z : m0 = 0 := by omega
    rw [hm0z] at hspec_true
    have h0 : topSum priors 0 = 0 := by simp [topSum]
    rw [h0] at hspec_true
    linarith
  have h1 : m0 ≤ j0 + 1 := by
    by_contra h
    exact hspec_min (j0 + 1) (by omega) hcode_true
  have h2 : j0 ≤ m0 - 1 := by
    by_contra h
    have heq1 : m0 - 1 + 1 = m0 := by omega
    have hx := hcode_min (m0 - 1) (by omega)
    rw [heq1] at hx
    exact hx hspec_true
  have hm0eq : m0 = j0 + 1 := by omega
  simp only [codeMaxIndex, specCutoff, npArgmaxBool]
  rw [sortedByArgsort_eq, hj0, hm0, Option.getD_some, Option.getD_some, hm0eq]

/-- C6: for every prior distribution (positive, attainable target and at least
two labels) the code's branching cutoff (lines 756-768) equals the size of the
smallest descending-prior prefix whose cumulative probability reaches
`target_branch_prob`, clamped to `[1, max_branching_factor]`; when that cutoff
is exactly 1 and the top label is the state's current chord, it is widened to 2
(lines 810-812); and the branch loop (lines 814-818), which skips
self-transitions, always has at least one candidate, so every surviving state
branches at least once from every range. -/
theorem C6_branching_cutoff (priors : List ℚ) (target : ℚ) (maxB : ℕ) (chord : Option ℕ)
    (hlen : 2 ≤ priors.length) (ht : 0 < target) (hsum : target ≤ priors.sum)
    (hB : 1 ≤ maxB) :
    codeMaxIndex priors target maxB = specCutoff priors target maxB ∧
    (codeMaxIndex priors target maxB = 1 →
      chord = some ((argsortDesc priors).headD 0) →
      effMaxIndex (argsortDesc priors) (codeMaxIndex priors target maxB) chord = 2) ∧
    branchCands (argsortDesc priors) (codeMaxIndex priors target maxB) chord ≠ [] := by
  have hk1 : 1 ≤ codeMaxIndex priors target maxB := by
    simp only [codeMaxIndex, npClip]
    omega
  have hAlen : (argsortDesc priors).length = priors.length := argsortDesc_length priors
  have hAnd : (argsortDesc priors).Nodup := argsortDesc_nodup priors
  obtain ⟨a0, a1, arest, hA⟩ : ∃ a0 a1 arest, argsortDesc priors = a0 :: a1 :: arest := by
    cases hA0 : argsortDesc priors with
    | nil =>
      rw [hA0] at hAlen
      simp at hAlen
      omega
    | cons a0 tl =>
      cases tl with
      | nil =>
        rw [hA0] at hAlen
        simp at hAlen
        omega
      | cons a1 arest => exact ⟨a0, a1, arest, rfl⟩
  have hhead : (argsortDesc priors).headD 0 = a0 := by rw [hA, List.headD_cons]
  have hne01 : a0 ≠ a1 := by
    have hnd := hAnd
    rw [hA] at hnd
    intro h
    exact (List.nodup_cons.mp hnd).1 (by rw [h]; exact List.mem_cons_self _ _)
  refine ⟨cutoff_eq priors target maxB (by omega) ht hsum, ?_, ?_⟩
  · intro h1 h2
    simp only [effMaxIndex]
    rw [if_pos ⟨h1, h2⟩]
  · simp only [branchCands]
    by_cases hcond : codeMaxIndex priors target maxB = 1 ∧
        chord = some ((argsortDesc priors).headD 0)
    · have heff : effMaxIndex (argsortDesc priors) (codeMaxIndex priors target maxB) chord
          = 2 := by
        simp only [effMaxIndex]
        rw [if_pos hcond]
      have hmem : a1 ∈ (argsortDesc priors).take
          (effMaxIndex (argsortDesc priors) (codeMaxIndex priors target maxB) chord) := by
        rw [heff, hA]
        simp
      have hprop : decide (chord ≠ some a1) = true := by
        apply decide_eq_true
        rw [hcond.2, hhead]
        intro h
        exact hne01 (Option.some.inj h)
      exact List.ne_nil_of_mem (List.mem_filter.mpr ⟨hmem, hprop⟩)
    · have heff : effMaxIndex (argsortDesc priors) (codeMaxIndex priors target maxB) chord
          = codeMaxIndex priors target maxB := by
        simp only [effMaxIndex]
        rw [if_neg hcond]
      have hmem0 : a0 ∈ (argsortDesc priors).take
          (effMaxIndex (argsortDesc priors) (codeMaxIndex priors target maxB) chord) := by
        rw [heff]
        obtain ⟨k1, hk1'⟩ : ∃ k1, codeMaxIndex priors target maxB = k1 + 1 :=
          ⟨codeMaxIndex priors target maxB - 1, by omega⟩
        rw [hk1', hA, List.take_succ_cons]
        exact List.mem_cons_self _ _
      cases chord with
      | none =>
        have hprop : decide ((none : Option ℕ) ≠ some a0) = true :=
          decide_eq_true (fun h => Option.noConfusion h)
        exact List.ne_nil_of_mem (List.mem_filter.mpr ⟨hmem0, hprop⟩)
      | some c0 =>
        by_cases hc0 : c0 = a0
        · subst hc0
          have hk2 : 2 ≤ codeMaxIndex priors target maxB := by
            rcases Nat.lt_or_ge (codeMaxIndex priors target maxB) 2 with h | h
            · exfalso
              apply hcond
              have hone : codeMaxIndex priors target maxB = 1 := by omega
              exact ⟨hone, by rw [hhead]⟩
            · exact h
          have hmem1 : a1 ∈ (argsortDesc priors).take
              (effMaxIndex (argsortDesc priors) (codeMaxIndex priors target maxB)
                (some c0)) := by
            rw [heff]
            obtain ⟨k2, hk2'⟩ : ∃ k2, codeMaxIndex priors target maxB = k2 + 1 + 1 :=
              ⟨codeMaxIndex priors target maxB - 2, by omega⟩
            rw [hk2', hA, List.take_succ_cons, List.take_succ_cons]
            exact List.mem_cons_of_mem _ (List.mem_cons_self _ _)
          have hprop : decide (some c0 ≠ some a1) = true :=
            decide_eq_true (fun h => hne01 (Option.some.inj h))
          exact List.ne_nil_of_mem (List.mem_filter.mpr ⟨hmem1, hprop⟩)
        · have hprop : decide (some c0 ≠ some a0) = true :=
            decide_eq_true (fun h => hc0 (Option.some.inj h))
          exact List.ne_nil_of_mem (List.mem_filter.mpr ⟨hmem0, hprop⟩)

def c6priors : List ℚ := [7/10, 3/10]

/-- Witness for C6 at priors `[0.7, 0.3]`, target `0.5`, branching factor 20,
current chord 0. -/
theorem C6_branching_cutoff_witness :
    codeMaxIndex c6priors (1/2) 20 = specCutoff c6priors (1/2) 20 ∧
    (codeMaxIndex c6priors (1/2) 20 = 1 →
      (some 0 : Option ℕ) = some ((argsortDesc c6priors).headD 0) →
      effMaxIndex (argsortDesc c6priors) (codeMaxIndex c6priors (1/2) 20) (some 0) = 2) ∧
    branchCands (argsortDesc c6priors) (codeMaxIndex c6priors (1/2) 20) (some 0) ≠ [] :=
  C6_branching_cutoff c6priors (1/2) 20 (some 0) (by norm_num [c6priors])
    (by norm_num) (by norm_num [c6priors, List.sum_cons, List.sum_nil]) (by norm_num)

end JointModel
